import Mathlib

set_option maxHeartbeats 1000000

/-!
Verification of the AnonForum core: the in-memory `DataStore` (posts, comments,
like ledger, expiry, pagination, search, stats, cleanup) and the abuse-mitigation
middleware (content-spam heuristics, fixed-window rate limiting).

Modelling conventions.  JavaScript machine integers and `Date.now()` instants are
modelled as `Nat` (all quantities involved are non-negative; where the source can
go negative, `Int` is used explicitly).  Each operation that reads the clock takes
the instant `now` as an explicit argument.  The `Math.random()`-derived draws of
id / alias generation are injected as explicit arguments ranging over exactly the
values the source can draw.  JavaScript `Map`s are modelled as insertion-ordered
association lists (fresh keys appended at the end, as `Map.set` does), and `Set`s
as duplicate-free insertion-ordered lists.  Character case folding and whitespace
classes are modelled for the Basic Latin range, which is exact for ASCII text.
-/

namespace AnonForum

/-- Boolean test that `p` occurs as a leading segment of `l`. -/
def leadMatch : List Char → List Char → Bool
  | [], _ => true
  | _ :: _, [] => false
  | a :: p, b :: l => a == b && leadMatch p l

/-- Boolean test that `pat` occurs as a contiguous segment anywhere in `hay`,
modelling JavaScript `String.prototype.includes`. -/
def hasSeg : List Char → List Char → Bool
  | [], pat => leadMatch pat []
  | h :: t, pat => leadMatch pat (h :: t) || hasSeg t pat

/-- Case-insensitive variant of `leadMatch` (Basic Latin case folding, matching
what a JavaScript `/i` regex does on ASCII input). -/
def ciLead : List Char → List Char → Bool
  | [], _ => true
  | _ :: _, [] => false
  | a :: p, b :: l => (Char.toLower a == Char.toLower b) && ciLead p l

/-- Update the first element of `l` satisfying `f` by `g`, leaving the rest
unchanged.  This models the JavaScript idiom of `Array.prototype.find` followed
by in-place mutation of the found object. -/
def updateFirst (f : α → Bool) (g : α → α) : List α → List α
  | [] => []
  | a :: t => if f a then g a :: t else a :: updateFirst f g t

/-- One comment of a post (`models/data.js`).  `ipHash` is `some h` while the
private hash is present and `none` after sanitization. -/
structure Comment where
  id : String
  anonId : String
  content : String
  timestamp : Nat
  ipHash : Option String
deriving DecidableEq, Repr

/-- One stored post (`models/data.js`, `createPost`). -/
structure Post where
  id : String
  anonId : String
  title : String
  content : String
  category : String
  tags : List String
  timestamp : Nat
  likes : Nat
  comments : List Comment
  ipHash : Option String
  expiresAt : Nat
deriving DecidableEq, Repr

/-- The in-memory store: `posts` newest-first, `likedPosts` mapping an IP hash to
the list of post ids that identity has liked (a JavaScript `Map` of `Set`s). -/
structure DataStore where
  posts : List Post
  likedPosts : List (String × List String)
  maxPosts : Nat
  maxAge : Nat
deriving DecidableEq, Repr

/-- The freshly constructed store (`new DataStore()` has `maxPosts = 500` and
`maxAge` seven days in milliseconds; both are kept as parameters here). -/
def emptyStore (maxPosts maxAge : Nat) : DataStore :=
  { posts := [], likedPosts := [], maxPosts := maxPosts, maxAge := maxAge }

/-- The pool of alias name stems in `generateAnonId`. -/
def aliasPool : List String :=
  ["Anon", "Ghost", "Shadow", "Phantom", "Mystery", "Unknown",
   "Cipher", "Void", "Echo", "Raven", "Sage", "Nova", "Zen"]

/-- Alias suffix number: `Math.floor(Math.random() * 9999) + 1000` where the
floor ranges over exactly `0..9998`; `k` stands for that floor. -/
def aliasNumber (k : Nat) : Nat := k + 1000

/-- `generateAnonId`: pool entry indexed by `pick = Math.floor(Math.random()*13)`
followed by the decimal suffix.  `pick < 13` and `k ≤ 9998` delimit the values
the source can draw. -/
def generateAnonId (pick k : Nat) : String :=
  aliasPool.getD pick "" ++ toString (aliasNumber k)

/-- `sanitizeComment`: drop the private `ipHash` field. -/
def sanitizeComment (c : Comment) : Comment := { c with ipHash := none }

/-- `sanitizePost`: drop the private `ipHash` field and sanitize every nested
comment. -/
def sanitizePost (p : Post) : Post :=
  { p with ipHash := none, comments := p.comments.map sanitizeComment }

/-- Caller-supplied fields of `createPost`. -/
structure PostInput where
  title : String
  content : String
  category : String
  tags : List String
  ipHash : String
deriving DecidableEq, Repr

/-- One `createPost` call's arguments: clock value, generated id and the two
random draws of `generateAnonId`, plus the payload. -/
structure CreateArg where
  now : Nat
  freshId : String
  pick : Nat
  k : Nat
  inp : PostInput
deriving DecidableEq, Repr

/-- The post record built by `createPost` before insertion: tags truncated to
five, `likes = 0`, empty comments, `expiresAt = now + maxAge`.  Title and
content are stored exactly as passed. -/
def mkPost (maxAge : Nat) (a : CreateArg) : Post :=
  { id := a.freshId
    anonId := generateAnonId a.pick a.k
    title := a.inp.title
    content := a.inp.content
    category := a.inp.category
    tags := a.inp.tags.take 5
    timestamp := a.now
    likes := 0
    comments := []
    ipHash := some a.inp.ipHash
    expiresAt := a.now + maxAge }

/-- `createPost`: build the post, `unshift` it, truncate to `maxPosts` when the
collection exceeds capacity, and return the sanitized view. -/
def createPost (s : DataStore) (a : CreateArg) : DataStore × Post :=
  let post := mkPost s.maxAge a
  let grown := post :: s.posts
  let posts' := if s.maxPosts < grown.length then grown.take s.maxPosts else grown
  ({ s with posts := posts' }, sanitizePost post)

/-- The filter of `getPosts`: drop posts with `expiresAt < now` and, when a
category is given (JavaScript truthy `category`), posts of other categories. -/
def matchesQuery (category : Option String) (now : Nat) (p : Post) : Bool :=
  !(decide (p.expiresAt < now)) &&
    (match category with
     | none => true
     | some c => p.category == c)

/-- The sort step of `getPosts`: a stable sort by the selected key, descending;
any string other than "likes" / "comments" falls to the default timestamp
branch of the `switch`. -/
def sortPosts (sortKey : String) (l : List Post) : List Post :=
  if sortKey = "likes" then l.mergeSort (fun a b => decide (b.likes ≤ a.likes))
  else if sortKey = "comments" then
    l.mergeSort (fun a b => decide (b.comments.length ≤ a.comments.length))
  else l.mergeSort (fun a b => decide (b.timestamp ≤ a.timestamp))

/-- The filtered-and-sorted list that `getPosts` paginates. -/
def filteredSorted (s : DataStore) (now : Nat) (category : Option String)
    (sortKey : String) : List Post :=
  sortPosts sortKey (s.posts.filter (matchesQuery category now))

/-- Pagination block of the `getPosts` response. -/
structure Pagination where
  current : Nat
  total : Nat
  hasNext : Bool
  hasPrev : Bool
  totalPosts : Nat
deriving DecidableEq, Repr

/-- Response of `getPosts`. -/
structure PostsResult where
  posts : List Post
  pagination : Pagination
deriving DecidableEq, Repr

/-- `Math.ceil(total / limit)` on naturals (the route guarantees `limit ≥ 1`). -/
def ceilDiv (total limit : Nat) : Nat := (total + limit - 1) / limit

/-- `getPosts`: filter, sort, then slice out the 1-based page `page` of size
`limit` and report pagination data. -/
def getPosts (s : DataStore) (now : Nat) (category : Option String)
    (page limit : Nat) (sortKey : String) : PostsResult :=
  let filtered := s.posts.filter (matchesQuery category now)
  let sorted := sortPosts sortKey filtered
  let total := filtered.length
  let totalPages := ceilDiv total limit
  let offset := (page - 1) * limit
  { posts := ((sorted.drop offset).take limit).map sanitizePost
    pagination :=
      { current := page
        total := totalPages
        hasNext := decide (page < totalPages)
        hasPrev := decide (1 < page)
        totalPosts := total } }

/-- `getPost`: first post with the given id, `null` when missing or when
`expiresAt < now`; otherwise the sanitized view. -/
def getPost (s : DataStore) (now : Nat) (postId : String) : Option Post :=
  match s.posts.find? (fun p => p.id == postId) with
  | none => none
  | some p => if p.expiresAt < now then none else some (sanitizePost p)

/-- Outcome record of `likePost`. -/
structure LikeResult where
  success : Bool
  likes : Option Nat
  message : Option String
deriving DecidableEq, Repr

/-- Set of post ids the identity `h` has liked (empty when the map has no entry
for `h`). -/
def ledgerGet (led : List (String × List String)) (h : String) : List String :=
  ((led.find? (fun e => e.1 == h)).map (fun e => e.2)).getD []

/-- Record a like of `pid` by `h`: append to the existing entry's set, or append
a fresh singleton entry (JavaScript `Map.set` of a new key appends). -/
def ledgerAdd (led : List (String × List String)) (h pid : String) :
    List (String × List String) :=
  if (led.find? (fun e => e.1 == h)).isSome then
    updateFirst (fun e => e.1 == h) (fun e => (e.1, e.2 ++ [pid])) led
  else led ++ [(h, [pid])]

/-- `likePost`: reject when the post is missing or `expiresAt < now`; reject a
duplicate like by the same hashed identity without touching any state;
otherwise increment the post's `likes` and record the pair in the ledger.
The identity argument is the already-hashed requester identity (the source
hashes the raw IP with a fixed salt before this logic runs). -/
def likePost (s : DataStore) (now : Nat) (postId ipHash : String) :
    DataStore × LikeResult :=
  match s.posts.find? (fun p => p.id == postId) with
  | none => (s, { success := false, likes := none, message := some "Post not found" })
  | some post =>
    if post.expiresAt < now then
      (s, { success := false, likes := none, message := some "Post not found" })
    else if (ledgerGet s.likedPosts ipHash).contains postId then
      (s, { success := false, likes := none, message := some "Already liked" })
    else
      ({ s with
          posts := updateFirst (fun p => p.id == postId)
            (fun p => { p with likes := p.likes + 1 }) s.posts
          likedPosts := ledgerAdd s.likedPosts ipHash postId },
       { success := true, likes := some (post.likes + 1), message := none })

/-- `createComment`: reject (`none`) when the parent post is missing or
`expiresAt < now`; otherwise append a fresh comment to the parent and return
its sanitized view. -/
def createComment (s : DataStore) (now : Nat) (postId : String)
    (freshId : String) (pick k : Nat) (content ipHash : String) :
    DataStore × Option Comment :=
  match s.posts.find? (fun p => p.id == postId) with
  | none => (s, none)
  | some post =>
    if post.expiresAt < now then (s, none)
    else
      let c : Comment :=
        { id := freshId, anonId := generateAnonId pick k, content := content,
          timestamp := now, ipHash := some ipHash }
      ({ s with
          posts := updateFirst (fun p => p.id == postId)
            (fun p => { p with comments := p.comments ++ [c] }) s.posts },
       some (sanitizeComment c))

/-- `getComments`: empty when the post is missing or `expiresAt < now`;
otherwise the sanitized comment list. -/
def getComments (s : DataStore) (now : Nat) (postId : String) : List Comment :=
  match s.posts.find? (fun p => p.id == postId) with
  | none => []
  | some p =>
    if p.expiresAt < now then [] else p.comments.map sanitizeComment

/-- Bump the per-category (or per-tag) counter, modelling insertion-ordered
JavaScript object keys (exact for keys that are not integer-like strings). -/
def bump : List (String × Nat) → String → List (String × Nat)
  | [], c => [(c, 1)]
  | (k, v) :: t, c => if k == c then (k, v + 1) :: t else (k, v) :: bump t c

/-- `getCategoryStats` over a given post list. -/
def categoryStats (l : List Post) : List (String × Nat) :=
  l.foldl (fun acc p => bump acc p.category) []

/-- The fields of the `getStats` response.  `memUsage` models
`Math.round(posts.length / maxPosts * 100)` by exact rational half-up
rounding. -/
structure StatsView where
  totalPosts : Nat
  totalComments : Nat
  totalLikes : Nat
  postsToday : Nat
  commentsToday : Nat
  categories : List (String × Nat)
  memPosts : Nat
  memMaxPosts : Nat
  memUsage : Nat
deriving DecidableEq, Repr

/-- `getStats`: all content aggregates range over posts with `expiresAt > now`;
the memory block uses the raw stored count.  `oneDayAgo` is computed in `Int`
because `now - 86400000` can be negative in the source. -/
def getStats (s : DataStore) (now : Nat) : StatsView :=
  let validPosts := s.posts.filter (fun p => decide (now < p.expiresAt))
  let oneDayAgo : Int := (now : Int) - 86400000
  { totalPosts := validPosts.length
    totalComments := (validPosts.map (fun p => p.comments.length)).sum
    totalLikes := (validPosts.map (fun p => p.likes)).sum
    postsToday := (validPosts.filter (fun p => decide (oneDayAgo < (p.timestamp : Int)))).length
    commentsToday :=
      (validPosts.map (fun p =>
        (p.comments.filter (fun c => decide (oneDayAgo < (c.timestamp : Int)))).length)).sum
    categories := categoryStats validPosts
    memPosts := s.posts.length
    memMaxPosts := s.maxPosts
    memUsage := (s.posts.length * 100 * 2 + s.maxPosts) / (2 * s.maxPosts) }

/-- The six content aggregates of `getStats` (everything except the raw-storage
memory block). -/
def statsCore (v : StatsView) :
    Nat × Nat × Nat × Nat × Nat × List (String × Nat) :=
  (v.totalPosts, v.totalComments, v.totalLikes, v.postsToday, v.commentsToday,
   v.categories)

/-- Tag occurrence counts over a post list, in first-encounter order. -/
def tagCounts (l : List Post) : List (String × Nat) :=
  l.foldl (fun acc p => p.tags.foldl bump acc) []

/-- `getTrendingTags`: count tags over posts with `expiresAt > now`, sort by
count descending (stable), keep the first `limit`. -/
def getTrendingTags (s : DataStore) (now : Nat) (limit : Nat) :
    List (String × Nat) :=
  let validPosts := s.posts.filter (fun p => decide (now < p.expiresAt))
  (((tagCounts validPosts).mergeSort (fun a b => decide (b.2 ≤ a.2))).take limit)

/-- Lower-cased character list of a string (Basic Latin case folding, as in
the ASCII fragment of `String.prototype.toLowerCase`). -/
def lowerChars (s : String) : List Char := s.toList.map Char.toLower

/-- `searchPosts`: empty for a trimmed query shorter than two characters;
otherwise case-insensitive segment match on title, content or any tag over
posts with `now ≤ expiresAt`, truncated to `limit`, sanitized. -/
def searchPosts (s : DataStore) (now : Nat) (query : String) (limit : Nat) :
    List Post :=
  if query.trim.toList.length < 2 then []
  else
    let searchTerm := (String.mk (lowerChars query)).trim.toList
    ((s.posts.filter (fun p =>
        !(decide (p.expiresAt < now)) &&
        (hasSeg (lowerChars p.title) searchTerm ||
         hasSeg (lowerChars p.content) searchTerm ||
         p.tags.any (fun t => hasSeg (lowerChars t) searchTerm)))).take limit).map
      sanitizePost

/-- `cleanupLikedPosts`: intersect every identity's liked set with the stored
post ids and drop identities whose set becomes empty (JavaScript `Map`
iteration with in-loop deletion preserves the order of survivors). -/
def cleanupLikedPosts (led : List (String × List String)) (validIds : List String) :
    List (String × List String) :=
  (led.map (fun e => (e.1, e.2.filter (fun pid => validIds.contains pid)))).filter
    (fun e => !e.2.isEmpty)

/-- `cleanup`: drop posts with `expiresAt ≤ now`, reconcile the ledger, return
the number of removed posts (`initialLength - posts.length`). -/
def cleanup (s : DataStore) (now : Nat) : DataStore × Nat :=
  let posts' := s.posts.filter (fun p => decide (now < p.expiresAt))
  let led' := cleanupLikedPosts s.likedPosts (posts'.map (fun p => p.id))
  ({ s with posts := posts', likedPosts := led' }, s.posts.length - posts'.length)

/-- The store with posts of `expiresAt ≤ now` dropped (the strictly-valid
sub-store used to state expiry-invisibility). -/
def filterValid (s : DataStore) (now : Nat) : DataStore :=
  { s with posts := s.posts.filter (fun p => decide (now < p.expiresAt)) }

/-! Content-spam heuristics of `middleware/security.js` (`contentFilter`).
Each JavaScript regex is embedded by its matching semantics as an executable
scanner over the character list. -/

/-- The whitespace class `\s` of JavaScript regexes. -/
def isSpaceChar (c : Char) : Bool :=
  let n := c.toNat
  n == 32 || n == 9 || n == 10 || n == 11 || n == 12 || n == 13 ||
  n == 0xa0 || n == 0x1680 || (0x2000 ≤ n && n ≤ 0x200a) ||
  n == 0x2028 || n == 0x2029 || n == 0x202f || n == 0x205f ||
  n == 0x3000 || n == 0xfeff

/-- Characters matched by `.` in a JavaScript regex without the `s` flag
(everything but line terminators). -/
def dotChar (c : Char) : Bool :=
  !(c == '\n' || c == '\r' ||
    c == Char.ofNat 0x2028 || c == Char.ofNat 0x2029)

/-- The word class `\w` of JavaScript regexes. -/
def wordChar (c : Char) : Bool :=
  ('a' ≤ c && c ≤ 'z') || ('A' ≤ c && c ≤ 'Z') || ('0' ≤ c && c ≤ '9') || c == '_'

/-- Capital Basic Latin letter, the class `[A-Z]`. -/
def upperAZ (c : Char) : Bool := 'A' ≤ c && c ≤ 'Z'

/-- Matcher for `/(.)\1{10,}/`: some (non-line-terminator) character repeated
at least eleven times consecutively. -/
def hasCharRun (l : List Char) : Bool :=
  (List.range l.length).any (fun i =>
    match l.drop i with
    | [] => false
    | c :: rest => dotChar c && leadMatch (List.replicate 10 c) rest)

/-- The characters of the literal `http://`. -/
def httpLit : List Char := ['h', 't', 't', 'p', ':', '/', '/']

/-- The characters of the literal `https://`. -/
def httpsLit : List Char := ['h', 't', 't', 'p', 's', ':', '/', '/']

/-- Length of the URL literal (`http://` or `https://`) starting at index `i`,
if any.  At a given index at most one of the two literals can match. -/
def urlLit (l : List Char) (i : Nat) : Option Nat :=
  if leadMatch httpsLit (l.drop i) then some 8
  else if leadMatch httpLit (l.drop i) then some 7
  else none

/-- The half-open index range `[i, j)` of `l` is non-empty and all whitespace
free. -/
def nonSpaceSeg (l : List Char) (i j : Nat) : Bool :=
  decide (i < j) && ((l.drop i).take (j - i)).all (fun c => !isSpaceChar c)

/-- Matcher for `/(https?:\/\/[^\s]+){3,}/`: three URL tokens, each a literal
followed by at least one non-whitespace character, abutting each other (the
repeated group cannot cross whitespace, so the URLs must be consecutive). -/
def hasTripleURL (l : List Char) : Bool :=
  (List.range l.length).any fun i =>
    match urlLit l i with
    | none => false
    | some a => (List.range l.length).any fun j =>
        match urlLit l j with
        | none => false
        | some b => nonSpaceSeg l (i + a) j && (List.range l.length).any fun k =>
            match urlLit l k with
            | none => false
            | some c => nonSpaceSeg l (j + b) k &&
                (match l.drop (k + c) with
                 | [] => false
                 | d :: _ => !isSpaceChar d)

/-- Matcher for `/[A-Z]{20,}/`: twenty consecutive capital letters. -/
def hasCapsRun (l : List Char) : Bool :=
  (List.range (l.length + 1)).any fun i =>
    let w := (l.drop i).take 20
    w.length == 20 && w.all upperAZ

/-- Matcher for `/(.{1,20})\1{3,}/`: a segment of one to twenty
(non-line-terminator) characters immediately repeated at least three more
times. -/
def hasRepeatedPhrase (l : List Char) : Bool :=
  (List.range (l.length + 1)).any fun i =>
    (List.range' 1 20).any fun m =>
      let w := (l.drop i).take m
      w.length == m && w.all dotChar && leadMatch (w ++ w ++ w) (l.drop (i + m))

/-- The phrase alternatives of `/(buy now|click here|urgent|limited time)/gi`. -/
def spamPhrases : List String := ["buy now", "click here", "urgent", "limited time"]

/-- Matcher for the spam-phrase pattern: some phrase occurs case-insensitively. -/
def hasSpamPhrase (l : List Char) : Bool :=
  (List.range (l.length + 1)).any fun i =>
    spamPhrases.any fun ph => ciLead ph.toList (l.drop i)

/-- The keyword alternatives of `/\b(viagra|casino|lottery|winner)\b/gi`. -/
def spamKeywords : List String := ["viagra", "casino", "lottery", "winner"]

/-- Whether the character at index `i` exists and is a word character. -/
def wordAt (l : List Char) (i : Nat) : Bool :=
  match l.drop i with
  | [] => false
  | c :: _ => wordChar c

/-- Matcher for the keyword pattern: some keyword occurs case-insensitively
with `\b` boundaries on both sides (the keywords consist of word characters,
so the boundaries amount to no adjacent word character). -/
def hasSpamKeyword (l : List Char) : Bool :=
  (List.range (l.length + 1)).any fun i =>
    spamKeywords.any fun kw =>
      (i == 0 || !wordAt l (i - 1)) && ciLead kw.toList (l.drop i) &&
        !wordAt l (i + kw.toList.length)

/-- `checkSpam` of `contentFilter`: falsy text is never spam; otherwise the six
patterns are tried in order. -/
def checkSpam (text : String) : Bool :=
  if text.isEmpty then false
  else
    let l := text.toList
    hasCharRun l || hasTripleURL l || hasCapsRun l || hasRepeatedPhrase l ||
      hasSpamPhrase l || hasSpamKeyword l

/-- The `contentFilter` middleware rejects (HTTP 400) exactly when title or
content is classified as spam. -/
def contentFilterRejects (title content : String) : Bool :=
  checkSpam title || checkSpam content

/-! Declarative renderings of the spec's content heuristics, stated as
segment-decomposition propositions to be compared with the scanners above. -/

/-- Spec reading of the repeated-character heuristic. -/
def RepeatCharSpec (l : List Char) : Prop :=
  ∃ pre c suf, dotChar c = true ∧ l = pre ++ List.replicate 11 c ++ suf

/-- One URL token: a scheme literal followed by a non-empty whitespace-free
remainder. -/
def URLTok (u : List Char) : Prop :=
  ∃ r, r ≠ [] ∧ (∀ c ∈ r, isSpaceChar c = false) ∧
    (u = httpLit ++ r ∨ u = httpsLit ++ r)

/-- Spec reading (amended) of the URL heuristic: three URL tokens appearing
consecutively, with no intervening characters. -/
def TripleURLSpec (l : List Char) : Prop :=
  ∃ pre u1 u2 u3 suf, URLTok u1 ∧ URLTok u2 ∧ URLTok u3 ∧
    l = pre ++ u1 ++ u2 ++ u3 ++ suf

/-- Spec reading of the all-caps heuristic. -/
def CapsRunSpec (l : List Char) : Prop :=
  ∃ pre w suf, w.length = 20 ∧ (∀ c ∈ w, upperAZ c = true) ∧ l = pre ++ w ++ suf

/-- Spec reading of the repeated-phrase heuristic. -/
def RepeatedPhraseSpec (l : List Char) : Prop :=
  ∃ pre w suf, 1 ≤ w.length ∧ w.length ≤ 20 ∧ (∀ c ∈ w, dotChar c = true) ∧
    l = pre ++ (w ++ w ++ w ++ w) ++ suf

/-- Case-insensitive equality of character lists. -/
def lowerEq (a b : List Char) : Prop :=
  a.map Char.toLower = b.map Char.toLower

/-- Spec reading of the spam-phrase heuristic. -/
def SpamPhraseSpec (l : List Char) : Prop :=
  ∃ ph ∈ spamPhrases, ∃ pre w suf, lowerEq w ph.toList ∧ l = pre ++ w ++ suf

/-- Spec reading of the spam-keyword heuristic: a keyword occurs
case-insensitively and is not adjacent to a word character on either side. -/
def SpamKeywordSpec (l : List Char) : Prop :=
  ∃ kw ∈ spamKeywords, ∃ pre w suf, lowerEq w kw.toList ∧ l = pre ++ w ++ suf ∧
    (∀ c, pre.getLast? = some c → wordChar c = false) ∧
    (∀ c, suf.head? = some c → wordChar c = false)

/-- The disjunction of the six heuristics, read from the spec list. -/
def SpamSpec (text : String) : Prop :=
  RepeatCharSpec text.toList ∨ TripleURLSpec text.toList ∨
    CapsRunSpec text.toList ∨ RepeatedPhraseSpec text.toList ∨
    SpamPhraseSpec text.toList ∨ SpamKeywordSpec text.toList

/-- Count of URL-token start positions anywhere in the text ("URLs present"),
used to state the original claim that three URLs anywhere trigger rejection. -/
def urlStartCount (l : List Char) : Nat :=
  ((List.range l.length).filter (fun i =>
    match urlLit l i with
    | none => false
    | some a =>
      match l.drop (i + a) with
      | [] => false
      | d :: _ => !isSpaceChar d)).length

/-! Rate limiting (`createRateLimit` of `middleware/security.js`). -/

/-- Per-identity rate-limit record. -/
structure RLEntry where
  count : Nat
  resetTime : Nat
deriving DecidableEq, Repr

/-- Outcome of one gated request. -/
inductive RLResult where
  | accepted : RLResult
  | rejected (retryAfter : Nat) : RLResult
deriving DecidableEq, Repr

/-- One request through the limiter returned by `createRateLimit windowMs max`:
lazily evict entries whose window start lies more than `windowMs` in the past,
then start a fresh window, reset a stale window to count 1, reject over-cap
requests with `Math.ceil` of the remaining milliseconds over 1000, or bump the
counter.  `key` is the hashed requester identity. -/
def rlStep (windowMs maxReq : Nat) (st : List (String × RLEntry)) (key : String)
    (now : Nat) : List (String × RLEntry) × RLResult :=
  let st1 := st.filter (fun e => !(decide (windowMs < now - e.2.resetTime)))
  match st1.find? (fun e => e.1 == key) with
  | none => (st1 ++ [(key, ⟨1, now⟩)], .accepted)
  | some e =>
    if windowMs < now - e.2.resetTime then
      (updateFirst (fun x => x.1 == key) (fun x => (x.1, ⟨1, now⟩)) st1, .accepted)
    else if maxReq ≤ e.2.count then
      (st1, .rejected ((windowMs - (now - e.2.resetTime) + 999) / 1000))
    else
      (updateFirst (fun x => x.1 == key)
        (fun x => (x.1, ⟨x.2.count + 1, x.2.resetTime⟩)) st1, .accepted)

/-- Store after one `createPost` call (dropping the returned view). -/
def applyCreate (s : DataStore) (a : CreateArg) : DataStore := (createPost s a).1

/-- Store after a sequence of `createPost` calls. -/
def runCreates (s : DataStore) (l : List CreateArg) : DataStore :=
  l.foldl applyCreate s

/-- Example creation arguments A, B, C of the capacity-eviction example. -/
def cArgA : CreateArg := ⟨0, "idA", 0, 0, ⟨"A", "contentA", "general", [], "hA"⟩⟩

/-- Second example creation argument. -/
def cArgB : CreateArg := ⟨1, "idB", 1, 1, ⟨"B", "contentB", "general", [], "hB"⟩⟩

/-- Third example creation argument. -/
def cArgC : CreateArg := ⟨2, "idC", 2, 2, ⟨"C", "contentC", "general", [], "hC"⟩⟩

/-- A concrete post whose expiry instant is exactly 100. -/
def cxPost : Post :=
  ⟨"p1", "Anon1000", "Title", "Content", "tech", ["x"], 0, 0, [], some "h", 100⟩

/-- A concrete store holding only `cxPost`. -/
def cxStore : DataStore := ⟨[cxPost], [], 500, 604800000⟩

/-- Surrounding-whitespace removal on a character list (the effect of
JavaScript `String.prototype.trim` on ASCII text). -/
def trimChars (l : List Char) : List Char :=
  ((l.dropWhile Char.isWhitespace).reverse.dropWhile Char.isWhitespace).reverse

/-! General helper lemmas. -/

theorem sanitizePost_expiresAt (p : Post) : (sanitizePost p).expiresAt = p.expiresAt := rfl

theorem sanitizePost_ipHash (p : Post) : (sanitizePost p).ipHash = none := rfl

theorem sanitizeComment_ipHash (c : Comment) : (sanitizeComment c).ipHash = none := rfl

theorem sanitizePost_comments_ipHash (p : Post) :
    ∀ c ∈ (sanitizePost p).comments, c.ipHash = none := by
  intro c hc
  rcases List.mem_map.mp hc with ⟨d, _, rfl⟩
  rfl

theorem mem_sortPosts {v : Post} {k : String} {l : List Post} :
    v ∈ sortPosts k l ↔ v ∈ l := by
  unfold sortPosts
  split
  · exact List.mem_mergeSort
  · split
    · exact List.mem_mergeSort
    · exact List.mem_mergeSort

theorem length_sortPosts (k : String) (l : List Post) :
    (sortPosts k l).length = l.length := by
  unfold sortPosts
  split
  · exact List.length_mergeSort l
  · split
    · exact List.length_mergeSort l
    · exact List.length_mergeSort l

theorem matchesQuery_expiry {cat : Option String} {now : Nat} {p : Post}
    (h : matchesQuery cat now p = true) : now ≤ p.expiresAt := by
  unfold matchesQuery at h
  have h1 : (!decide (p.expiresAt < now)) = true := (Bool.and_elim_left h)
  simp only [Bool.not_eq_true', decide_eq_false_iff_not] at h1
  omega

/-! Claim C9. -/

/-- C9 counterexample: the store itself does not trim — `createPost` called with
a whitespace-padded title returns (and stores) the title verbatim, which differs
from its trimmed form.  (The trimming the spec describes happens in the HTTP
route before the store is called.) -/
theorem spec_C9_counterexample :
    (createPost (emptyStore 500 604800000)
        ⟨0, "id1", 0, 0, ⟨" padded ", " body ", "general", [], "h"⟩⟩).2.title
      = " padded "
    ∧ trimChars " padded ".toList ≠ " padded ".toList
    ∧ (createPost (emptyStore 500 604800000)
        ⟨0, "id1", 0, 0, ⟨" padded ", " body ", "general", [], "h"⟩⟩).2.content
      = " body " := by
  refine ⟨rfl, by decide, rfl⟩

/-- C9 (amended): `createPost` stores and returns the title and body exactly as
passed (surrounding whitespace included; the HTTP boundary trims before the
store is called), and the tags list is truncated to the first 5 entries
regardless of what the caller passed. -/
theorem spec_C9_passthrough_and_tag_truncation (s : DataStore) (a : CreateArg) :
    (createPost s a).2.title = a.inp.title
    ∧ (createPost s a).2.content = a.inp.content
    ∧ (mkPost s.maxAge a).title = a.inp.title
    ∧ (mkPost s.maxAge a).content = a.inp.content
    ∧ (createPost s a).2.tags = a.inp.tags.take 5
    ∧ (mkPost s.maxAge a).tags = a.inp.tags.take 5
    ∧ (createPost s a).2.tags.length ≤ 5 := by
  refine ⟨rfl, rfl, rfl, rfl, rfl, rfl, ?_⟩
  show (a.inp.tags.take 5).length ≤ 5
  rw [List.length_take]
  omega

/-! Claim C10. -/

/-- C10 counterexample: `Math.floor(Math.random() * 9999)` ranges over `0..9998`,
so the draw `k = 9998` is possible and produces the five-digit suffix 10998,
outside the interval `[1000, 9999]` the claim states. -/
theorem spec_C10_counterexample :
    aliasNumber 9998 = 10998
    ∧ ¬ aliasNumber 9998 ≤ 9999
    ∧ generateAnonId 0 9998 = "Anon10998" := by
  refine ⟨rfl, by decide, rfl⟩

/-- C10 (amended): every alias is a pool stem followed by the decimal suffix
`k + 1000` where `k = Math.floor(Math.random() * 9999) ∈ [0, 9998]`, so the
suffix lies in `[1000, 10998]` (it can exceed 9999, and the draw is uniform over
`[1000, 10998]`, not over `[1000, 9999]`). -/
theorem spec_C10_alias_shape (pick k : Nat) (hp : pick < 13) (hk : k ≤ 9998) :
    aliasPool.getD pick "" ∈ aliasPool
    ∧ generateAnonId pick k = aliasPool.getD pick "" ++ toString (aliasNumber k)
    ∧ 1000 ≤ aliasNumber k
    ∧ aliasNumber k ≤ 10998 := by
  have hlen : pick < aliasPool.length := by
    simpa [aliasPool] using hp
  refine ⟨?_, rfl, by simp [aliasNumber], by simp [aliasNumber]; omega⟩
  rw [List.getD_eq_getElem aliasPool "" hlen]
  exact List.getElem_mem hlen

/-- Witness for C10's amended theorem at the concrete draw `pick = 12`,
`k = 9998`. -/
theorem spec_C10_alias_shape_witness :
    aliasPool.getD 12 "" ∈ aliasPool
    ∧ generateAnonId 12 9998 = aliasPool.getD 12 "" ++ toString (aliasNumber 9998)
    ∧ 1000 ≤ aliasNumber 9998
    ∧ aliasNumber 9998 ≤ 10998 :=
  spec_C10_alias_shape 12 9998 (by decide) (by decide)

/-! Claim C6. -/

/-- C6: no view returned by `createPost`, `getPosts`, `getPost`, `createComment`
or `getComments` carries the private `ipHash`, neither on a post view nor on any
nested comment view. -/
theorem spec_C6_no_iphash_in_views (s : DataStore) (now : Nat) (a : CreateArg)
    (cat : Option String) (page limit : Nat) (sortKey : String)
    (postId freshId : String) (pick k : Nat) (body hh : String) :
    ((createPost s a).2.ipHash = none
      ∧ ∀ c ∈ (createPost s a).2.comments, c.ipHash = none)
    ∧ (∀ v ∈ (getPosts s now cat page limit sortKey).posts,
        v.ipHash = none ∧ ∀ c ∈ v.comments, c.ipHash = none)
    ∧ (∀ v, getPost s now postId = some v →
        v.ipHash = none ∧ ∀ c ∈ v.comments, c.ipHash = none)
    ∧ (∀ c, (createComment s now postId freshId pick k body hh).2 = some c →
        c.ipHash = none)
    ∧ (∀ c ∈ getComments s now postId, c.ipHash = none) := by
  refine ⟨⟨rfl, ?_⟩, ?_, ?_, ?_, ?_⟩
  · exact sanitizePost_comments_ipHash _
  · intro v hv
    rcases List.mem_map.mp hv with ⟨u, _, rfl⟩
    exact ⟨sanitizePost_ipHash u, sanitizePost_comments_ipHash u⟩
  · intro v hv
    unfold getPost at hv
    split at hv
    · exact absurd hv (by simp)
    · split at hv
      · exact absurd hv (by simp)
      · have : sanitizePost _ = v := Option.some.inj hv
        subst this
        exact ⟨sanitizePost_ipHash _, sanitizePost_comments_ipHash _⟩
  · intro c hc
    unfold createComment at hc
    split at hc
    · exact absurd hc (by simp)
    · split at hc
      · exact absurd hc (by simp)
      · simp only at hc
        have : sanitizeComment _ = c := Option.some.inj hc
        exact this ▸ sanitizeComment_ipHash _
  · intro c hc
    unfold getComments at hc
    split at hc
    · exact absurd hc (by simp)
    · split at hc
      · exact absurd hc (by simp)
      · rcases List.mem_map.mp hc with ⟨d, _, rfl⟩
        rfl

/-! Claim C2. -/

theorem createPost_posts (s : DataStore) (a : CreateArg) :
    (createPost s a).1.posts = (mkPost s.maxAge a :: s.posts).take s.maxPosts := by
  unfold createPost
  simp only
  split
  · rfl
  · next h =>
    rw [List.take_of_length_le (by omega)]

theorem createPost_maxPosts (s : DataStore) (a : CreateArg) :
    (createPost s a).1.maxPosts = s.maxPosts := rfl

theorem createPost_maxAge (s : DataStore) (a : CreateArg) :
    (createPost s a).1.maxAge = s.maxAge := rfl

theorem take_append_take_absorb {α : Type} (n : Nat) (u v : List α) :
    (u ++ v.take n).take n = (u ++ v).take n := by
  rw [List.take_append_eq_append_take, List.take_append_eq_append_take,
    List.take_take]
  have h : (n - u.length) ⊓ n = n - u.length := inf_eq_left.mpr (Nat.sub_le n u.length)
  rw [h]

theorem runCreates_posts (l : List CreateArg) :
    ∀ s : DataStore, s.posts.length ≤ s.maxPosts →
      (runCreates s l).posts
        = (l.reverse.map (mkPost s.maxAge) ++ s.posts).take s.maxPosts := by
  induction l with
  | nil =>
    intro s hs
    simpa [runCreates] using (List.take_of_length_le hs).symm
  | cons a t ih =>
    intro s hs
    have hfold : runCreates s (a :: t) = runCreates (applyCreate s a) t := rfl
    have hmax : (applyCreate s a).maxPosts = s.maxPosts := rfl
    have hage : (applyCreate s a).maxAge = s.maxAge := rfl
    have hposts : (applyCreate s a).posts
        = (mkPost s.maxAge a :: s.posts).take s.maxPosts := createPost_posts s a
    have hlen : (applyCreate s a).posts.length ≤ (applyCreate s a).maxPosts := by
      rw [hposts, hmax, List.length_take]
      omega
    rw [hfold, ih (applyCreate s a) hlen, hmax, hage, hposts,
      take_append_take_absorb, List.reverse_cons, List.map_append]
    simp [List.append_assoc]

/-- C2: starting from the empty store with capacity `m`, after any prefix of a
`createPost` sequence the collection equals the newest-first list of the posts
created so far truncated to the newest `m`, hence it never exceeds `m` posts and
once the sequence exceeds `m` it holds exactly the `m` most recent.  The final
conjunct is the spec's example: creating A, B, C with capacity 2 leaves [C, B]. -/
theorem spec_C2_capacity_eviction (m ma : Nat) (l : List CreateArg) :
    (∀ n, (runCreates (emptyStore m ma) (l.take n)).posts
        = ((l.take n).reverse.map (mkPost ma)).take m)
    ∧ (∀ n, (runCreates (emptyStore m ma) (l.take n)).posts.length ≤ m)
    ∧ (runCreates (emptyStore 2 7) [cArgA, cArgB, cArgC]).posts
        = [mkPost 7 cArgC, mkPost 7 cArgB] := by
  have key : ∀ n, (runCreates (emptyStore m ma) (l.take n)).posts
      = ((l.take n).reverse.map (mkPost ma)).take m := by
    intro n
    have := runCreates_posts (l.take n) (emptyStore m ma) (by simp [emptyStore])
    simpa [emptyStore] using this
  refine ⟨key, ?_, ?_⟩
  · intro n
    rw [key n, List.length_take]
    omega
  · have := runCreates_posts [cArgA, cArgB, cArgC] (emptyStore 2 7)
      (by simp [emptyStore])
    simpa [emptyStore] using this

/-! Helper lemmas about `updateFirst` and the like ledger. -/

theorem find?_updateFirst_same {α : Type} (p : α → Bool) (g : α → α) (l : List α)
    (hg : ∀ a, p a = true → p (g a) = true) :
    (updateFirst p g l).find? p = (l.find? p).map g := by
  induction l with
  | nil => rfl
  | cons a t ih =>
    unfold updateFirst
    by_cases hpa : p a = true
    · rw [if_pos hpa]
      rw [List.find?_cons_of_pos _ (hg a hpa), List.find?_cons_of_pos _ hpa]
      rfl
    · have hpa' : p a = false := by revert hpa; cases p a <;> simp
      rw [if_neg (by simp [hpa'])]
      rw [List.find?_cons_of_neg _ (by simp [hpa']),
        List.find?_cons_of_neg _ (by simp [hpa']), ih]

theorem find?_updateFirst_other {α : Type} (p q : α → Bool) (g : α → α) (l : List α)
    (hq : ∀ a, q a = true → p a = false) (hpg : ∀ a, p (g a) = p a) :
    (updateFirst q g l).find? p = l.find? p := by
  induction l with
  | nil => rfl
  | cons a t ih =>
    unfold updateFirst
    by_cases hqa : q a = true
    · rw [if_pos hqa]
      have hpa := hq a hqa
      rw [List.find?_cons_of_neg _ (by simp [hpg a, hpa]),
        List.find?_cons_of_neg _ (by simp [hpa])]
    · rw [if_neg hqa]
      cases hpa : p a with
      | true =>
        rw [List.find?_cons_of_pos _ hpa, List.find?_cons_of_pos _ hpa]
      | false =>
        rw [List.find?_cons_of_neg _ (by simp [hpa]),
          List.find?_cons_of_neg _ (by simp [hpa]), ih]

theorem ledgerGet_add_same (led : List (String × List String)) (h pid : String) :
    ledgerGet (ledgerAdd led h pid) h = ledgerGet led h ++ [pid] := by
  unfold ledgerAdd
  cases hfind : led.find? (fun e => e.1 == h) with
  | none =>
    rw [if_neg (by simp [hfind])]
    unfold ledgerGet
    rw [List.find?_append, hfind]
    simp
  | some e =>
    rw [if_pos (by simp [hfind])]
    unfold ledgerGet
    rw [find?_updateFirst_same _ _ _ (by intro a ha; simpa using ha), hfind]
    simp

theorem ledgerGet_add_other (led : List (String × List String)) (h pid h2 : String)
    (hne : h2 ≠ h) :
    ledgerGet (ledgerAdd led h pid) h2 = ledgerGet led h2 := by
  unfold ledgerAdd
  have hq : ∀ a : String × List String, (a.1 == h) = true → (a.1 == h2) = false := by
    intro a ha
    have ha' : a.1 = h := by simpa using ha
    simp [ha']
    exact fun hh => hne hh.symm
  have hpg : ∀ a : String × List String,
      (((fun e => (e.1, e.2 ++ [pid])) a).1 == h2) = (a.1 == h2) := fun a => rfl
  by_cases hfind : (led.find? (fun e => e.1 == h)).isSome
  · rw [if_pos hfind]
    unfold ledgerGet
    rw [find?_updateFirst_other (fun e => e.1 == h2) (fun e => e.1 == h)
      (fun e => (e.1, e.2 ++ [pid])) led hq hpg]
  · rw [if_neg hfind]
    unfold ledgerGet
    rw [List.find?_append]
    have hnone : List.find? (fun e => e.1 == h2) [(h, [pid])] = none := by
      have : (h == h2) = false := by
        simp
        exact fun hh => hne hh.symm
      simp [List.find?, this]
    rw [hnone]
    simp

/-! Claim C3. -/

/-- C3: against a stored post that is not expired at `now`, a first like by
identity `h` succeeds and reports `likes + 1` (the stored post's counter is
incremented); an immediately repeated like by `h` returns the "Already liked"
rejection and leaves the entire store unchanged; a like by a distinct identity
`h2` that has not liked the post still succeeds and reports `likes + 2`. -/
theorem spec_C3_like_idempotent (s : DataStore) (now : Nat) (pid h h2 : String)
    (p : Post)
    (hfind : s.posts.find? (fun q => q.id == pid) = some p)
    (hexp : now ≤ p.expiresAt)
    (hh : (ledgerGet s.likedPosts h).contains pid = false)
    (hh2 : (ledgerGet s.likedPosts h2).contains pid = false)
    (hne : h2 ≠ h) :
    (likePost s now pid h).2 = ⟨true, some (p.likes + 1), none⟩
    ∧ ((likePost s now pid h).1.posts.find? (fun q => q.id == pid)
        = some { p with likes := p.likes + 1 })
    ∧ (likePost (likePost s now pid h).1 now pid h).2
        = ⟨false, none, some "Already liked"⟩
    ∧ (likePost (likePost s now pid h).1 now pid h).1 = (likePost s now pid h).1
    ∧ (likePost (likePost s now pid h).1 now pid h2).2
        = ⟨true, some (p.likes + 2), none⟩ := by
  have hnlt : ¬ p.expiresAt < now := by omega
  have hnlt2 : ¬ ({ p with likes := p.likes + 1 } : Post).expiresAt < now := hnlt
  have hstep1 : likePost s now pid h
      = ({ s with
            posts := updateFirst (fun q => q.id == pid)
              (fun q => { q with likes := q.likes + 1 }) s.posts
            likedPosts := ledgerAdd s.likedPosts h pid },
          ⟨true, some (p.likes + 1), none⟩) := by
    unfold likePost
    rw [hfind]
    simp only [if_neg hnlt, hh]
    simp
  have hfind1 : (likePost s now pid h).1.posts.find? (fun q => q.id == pid)
      = some { p with likes := p.likes + 1 } := by
    rw [hstep1]
    simp only
    rw [find?_updateFirst_same _ _ _ (by intro a ha; simpa using ha), hfind]
    rfl
  have hled1 : (likePost s now pid h).1.likedPosts = ledgerAdd s.likedPosts h pid := by
    rw [hstep1]
  have hcontains1 : (ledgerGet (likePost s now pid h).1.likedPosts h).contains pid = true := by
    rw [hled1, ledgerGet_add_same]
    simp
  have step2 : ∀ s1 : DataStore,
      s1.posts.find? (fun q => q.id == pid) = some { p with likes := p.likes + 1 } →
      (ledgerGet s1.likedPosts h).contains pid = true →
      likePost s1 now pid h = (s1, ⟨false, none, some "Already liked"⟩) := by
    intro s1 hf hc
    unfold likePost
    rw [hf]
    simp only [if_neg hnlt2, hc]
    simp
  have hstep2 := step2 _ hfind1 hcontains1
  have hcontains2 : (ledgerGet (likePost s now pid h).1.likedPosts h2).contains pid = false := by
    rw [hled1, ledgerGet_add_other _ _ _ _ hne]
    exact hh2
  have step3 : ∀ s1 : DataStore,
      s1.posts.find? (fun q => q.id == pid) = some { p with likes := p.likes + 1 } →
      (ledgerGet s1.likedPosts h2).contains pid = false →
      (likePost s1 now pid h2).2 = ⟨true, some (p.likes + 2), none⟩ := by
    intro s1 hf hc
    unfold likePost
    rw [hf]
    simp only [if_neg hnlt2, hc]
    simp
  have hstep3 := step3 _ hfind1 hcontains2
  refine ⟨by rw [hstep1], hfind1, by rw [hstep2], by rw [hstep2], hstep3⟩

/-- Witness for C3 at a concrete store: one stored post "p1" expiring at 100,
`now = 50`, identities "ha" and "hb". -/
theorem spec_C3_like_idempotent_witness :
    (likePost cxStore 50 "p1" "ha").2 = ⟨true, some (cxPost.likes + 1), none⟩
    ∧ ((likePost cxStore 50 "p1" "ha").1.posts.find? (fun q => q.id == "p1")
        = some { cxPost with likes := cxPost.likes + 1 })
    ∧ (likePost (likePost cxStore 50 "p1" "ha").1 50 "p1" "ha").2
        = ⟨false, none, some "Already liked"⟩
    ∧ (likePost (likePost cxStore 50 "p1" "ha").1 50 "p1" "ha").1
        = (likePost cxStore 50 "p1" "ha").1
    ∧ (likePost (likePost cxStore 50 "p1" "ha").1 50 "p1" "hb").2
        = ⟨true, some (cxPost.likes + 2), none⟩ :=
  spec_C3_like_idempotent cxStore 50 "p1" "ha" "hb" cxPost (by decide) (by decide)
    (by decide) (by decide) (by decide)

/-! Claim C5. -/

/-- C5: `cleanup` keeps exactly the posts with `expiresAt > now` (so it removes
all and only the posts with `expiresAt ≤ now`), returns the number of removed
posts, and afterwards every ledger entry is non-empty and references only ids of
still-stored posts. -/
theorem spec_C5_cleanup (s : DataStore) (now : Nat) :
    (∀ p, p ∈ (cleanup s now).1.posts ↔ p ∈ s.posts ∧ now < p.expiresAt)
    ∧ (cleanup s now).2 = (s.posts.filter (fun p => decide (p.expiresAt ≤ now))).length
    ∧ (∀ e ∈ (cleanup s now).1.likedPosts,
        e.2 ≠ [] ∧ ∀ pid ∈ e.2, ∃ p ∈ (cleanup s now).1.posts, p.id = pid) := by
  refine ⟨?_, ?_, ?_⟩
  · intro p
    show p ∈ s.posts.filter (fun p => decide (now < p.expiresAt)) ↔ _
    rw [List.mem_filter]
    simp
  · show s.posts.length - (s.posts.filter (fun p => decide (now < p.expiresAt))).length = _
    have hsplit := List.length_eq_length_filter_add
      (l := s.posts) (fun p => decide (now < p.expiresAt))
    have hcongr : s.posts.filter (fun p => !decide (now < p.expiresAt))
        = s.posts.filter (fun p => decide (p.expiresAt ≤ now)) := by
      apply List.filter_congr
      intro p _
      by_cases hp : now < p.expiresAt
      · have hp2 : ¬ p.expiresAt ≤ now := by omega
        simp [hp, hp2]
      · have hp2 : p.expiresAt ≤ now := by omega
        simp [hp, hp2]
    rw [hcongr] at hsplit
    omega
  · intro e he
    show _ ∧ _
    unfold cleanup cleanupLikedPosts at he
    simp only at he
    rcases List.mem_filter.mp he with ⟨hmem, hne⟩
    constructor
    · intro hnil
      rw [hnil] at hne
      simp at hne
    · intro pid hpid
      rcases List.mem_map.mp hmem with ⟨e0, _, heq⟩
      rw [← heq] at hpid
      simp only at hpid
      rcases List.mem_filter.mp hpid with ⟨_, hcont⟩
      have hmemid : pid ∈ (s.posts.filter (fun p => decide (now < p.expiresAt))).map
          (fun p => p.id) := by
        have : List.elem pid ((s.posts.filter (fun p => decide (now < p.expiresAt))).map
            (fun p => p.id)) = true := hcont
        exact (List.elem_iff).mp this
      rcases List.mem_map.mp hmemid with ⟨q, hq, hqid⟩
      exact ⟨q, hq, hqid⟩

/-- Witness for C5 at a concrete store: one post expiring at 100, a ledger with
a dangling id and an entry that becomes empty, cleaned up at `now = 100`. -/
theorem spec_C5_cleanup_witness :
    (∀ p, p ∈ (cleanup ⟨[cxPost], [("ha", ["p1", "zz"]), ("hb", ["zz"])], 500, 7⟩ 100).1.posts
        ↔ p ∈ [cxPost] ∧ 100 < p.expiresAt)
    ∧ (cleanup ⟨[cxPost], [("ha", ["p1", "zz"]), ("hb", ["zz"])], 500, 7⟩ 100).2
        = ([cxPost].filter (fun p => decide (p.expiresAt ≤ 100))).length
    ∧ (∀ e ∈ (cleanup ⟨[cxPost], [("ha", ["p1", "zz"]), ("hb", ["zz"])], 500, 7⟩ 100).1.likedPosts,
        e.2 ≠ [] ∧ ∀ pid ∈ e.2,
          ∃ p ∈ (cleanup ⟨[cxPost], [("ha", ["p1", "zz"]), ("hb", ["zz"])], 500, 7⟩ 100).1.posts,
            p.id = pid) :=
  spec_C5_cleanup ⟨[cxPost], [("ha", ["p1", "zz"]), ("hb", ["zz"])], 500, 7⟩ 100

/-! Claim C1. -/

/-- C1 counterexample: the read paths test `expiresAt < now`, not
`expiresAt ≤ now`, so a post whose `expiresAt` equals the read instant is
returned even though the claim says every returned post has
`expiresAt` strictly greater than `now`. -/
theorem spec_C1_counterexample :
    cxPost.expiresAt ≤ 100
    ∧ getPost cxStore 100 "p1" = some (sanitizePost cxPost)
    ∧ sanitizePost cxPost ∈ (getPosts cxStore 100 none 1 20 "timestamp").posts := by
  refine ⟨by decide, by decide, ?_⟩
  unfold getPosts
  simp only
  apply List.mem_map.mpr
  refine ⟨cxPost, ?_, rfl⟩
  have h0 : (1 - 1) * 20 = 0 := rfl
  rw [h0, List.drop_zero]
  have hlen : (sortPosts "timestamp" (cxStore.posts.filter (matchesQuery none 100))).length ≤ 20 := by
    rw [length_sortPosts]
    decide
  rw [List.take_of_length_le hlen]
  exact mem_sortPosts.mpr (by decide)

/-- C1 (amended): posts with `expiresAt` strictly less than `now` are invisible
to `getPosts`, `getPost`, `likePost`, `createComment`, `getComments` and
`searchPosts` — every post those operations return satisfies
`now ≤ expiresAt`, and the mutating ones reject an expired target without
changing any state (a post with `expiresAt` exactly `now` is still visible to
them) — while `getStats` and `getTrendingTags` are computed solely from posts
with `expiresAt > now`. -/
theorem spec_C1_expiry_visibility (s : DataStore) (now : Nat) :
    (∀ (cat : Option String) (page limit : Nat) (sortKey : String),
        ∀ v ∈ (getPosts s now cat page limit sortKey).posts, now ≤ v.expiresAt)
    ∧ (∀ postId v, getPost s now postId = some v → now ≤ v.expiresAt)
    ∧ (∀ postId h p, s.posts.find? (fun q => q.id == postId) = some p →
        p.expiresAt < now →
        likePost s now postId h = (s, ⟨false, none, some "Post not found"⟩))
    ∧ (∀ postId freshId pick k body hh p,
        s.posts.find? (fun q => q.id == postId) = some p → p.expiresAt < now →
        createComment s now postId freshId pick k body hh = (s, none))
    ∧ (∀ postId p, s.posts.find? (fun q => q.id == postId) = some p →
        p.expiresAt < now → getComments s now postId = [])
    ∧ (∀ (q : String) (lim : Nat), ∀ v ∈ searchPosts s now q lim, now ≤ v.expiresAt)
    ∧ statsCore (getStats (filterValid s now) now) = statsCore (getStats s now)
    ∧ (∀ lim, getTrendingTags (filterValid s now) now lim = getTrendingTags s now lim) := by
  have hval : (filterValid s now).posts.filter (fun p => decide (now < p.expiresAt))
      = s.posts.filter (fun p => decide (now < p.expiresAt)) := by
    unfold filterValid
    simp only
    rw [List.filter_filter]
    apply List.filter_congr
    intro p _
    simp
  refine ⟨?_, ?_, ?_, ?_, ?_, ?_, ?_, ?_⟩
  · intro cat page limit sortKey v hv
    unfold getPosts at hv
    simp only at hv
    rcases List.mem_map.mp hv with ⟨u, hu, rfl⟩
    have hu2 : u ∈ sortPosts sortKey (s.posts.filter (matchesQuery cat now)) :=
      List.drop_subset _ _ (List.take_subset _ _ hu)
    have hu3 := mem_sortPosts.mp hu2
    have := matchesQuery_expiry (List.of_mem_filter hu3)
    rw [sanitizePost_expiresAt]
    exact this
  · intro postId v hv
    unfold getPost at hv
    split at hv
    · exact absurd hv (by simp)
    next p hfind =>
      split at hv
      · exact absurd hv (by simp)
      next hnlt =>
        have hsv := Option.some.inj hv
        subst hsv
        rw [sanitizePost_expiresAt]
        omega
  · intro postId h p hf hlt
    unfold likePost
    rw [hf]
    simp only [if_pos hlt]
  · intro postId freshId pick k body hh p hf hlt
    unfold createComment
    rw [hf]
    simp only [if_pos hlt]
  · intro postId p hf hlt
    unfold getComments
    rw [hf]
    simp only [if_pos hlt]
  · intro q lim v hv
    unfold searchPosts at hv
    split at hv
    · exact absurd hv (by simp)
    · simp only at hv
      rcases List.mem_map.mp hv with ⟨u, hu, rfl⟩
      have hu2 := List.take_subset _ _ hu
      have hu3 := List.of_mem_filter hu2
      have hexp : (!decide (u.expiresAt < now)) = true := Bool.and_elim_left hu3
      simp only [Bool.not_eq_true', decide_eq_false_iff_not] at hexp
      rw [sanitizePost_expiresAt]
      omega
  · unfold statsCore getStats
    simp only
    rw [hval]
  · intro lim
    unfold getTrendingTags
    simp only
    rw [hval]

/-- Witness for the amended C1 at the concrete boundary store and instant 100. -/
theorem spec_C1_expiry_visibility_witness :
    (∀ (cat : Option String) (page limit : Nat) (sortKey : String),
        ∀ v ∈ (getPosts cxStore 100 cat page limit sortKey).posts, 100 ≤ v.expiresAt)
    ∧ (∀ postId v, getPost cxStore 100 postId = some v → 100 ≤ v.expiresAt)
    ∧ (∀ postId h p, cxStore.posts.find? (fun q => q.id == postId) = some p →
        p.expiresAt < 100 →
        likePost cxStore 100 postId h = (cxStore, ⟨false, none, some "Post not found"⟩))
    ∧ (∀ postId freshId pick k body hh p,
        cxStore.posts.find? (fun q => q.id == postId) = some p → p.expiresAt < 100 →
        createComment cxStore 100 postId freshId pick k body hh = (cxStore, none))
    ∧ (∀ postId p, cxStore.posts.find? (fun q => q.id == postId) = some p →
        p.expiresAt < 100 → getComments cxStore 100 postId = [])
    ∧ (∀ (q : String) (lim : Nat), ∀ v ∈ searchPosts cxStore 100 q lim, 100 ≤ v.expiresAt)
    ∧ statsCore (getStats (filterValid cxStore 100) 100) = statsCore (getStats cxStore 100)
    ∧ (∀ lim, getTrendingTags (filterValid cxStore 100) 100 lim
        = getTrendingTags cxStore 100 lim) :=
  spec_C1_expiry_visibility cxStore 100

/-! Claim C4: arithmetic of `Math.ceil` pagination and the chunk decomposition. -/

theorem ceilDiv_zero (s : Nat) (hs : 0 < s) : ceilDiv 0 s = 0 := by
  unfold ceilDiv
  exact Nat.div_eq_of_lt (by omega)

theorem ceilDiv_step (len s : Nat) (hs : 0 < s) (hlen : 0 < len) :
    ceilDiv len s = ceilDiv (len - s) s + 1 := by
  unfold ceilDiv
  by_cases hcase : len ≤ s
  · have h1 : len - s = 0 := by omega
    rw [h1]
    have h2 : (0 + s - 1) / s = 0 := Nat.div_eq_of_lt (by omega)
    rw [h2]
    have h3 : len + s - 1 = (len - 1) + 1 * s := by omega
    rw [h3, Nat.add_mul_div_right _ _ hs, Nat.div_eq_of_lt (by omega)]
  · have h1 : len + s - 1 = (len - s + s - 1) + 1 * s := by omega
    rw [h1, Nat.add_mul_div_right _ _ hs]

theorem lt_ceilDiv_iff (p t s : Nat) (hs : 0 < s) :
    p < ceilDiv t s ↔ p * s < t := by
  unfold ceilDiv
  rw [Nat.lt_iff_add_one_le, Nat.le_div_iff_mul_le hs, Nat.succ_mul]
  constructor
  · intro h
    omega
  · intro h
    omega

theorem chunks_flatten_aux {α : Type} (s : Nat) (hs : 0 < s) :
    ∀ (n : Nat) (L : List α), L.length ≤ n →
      ((List.range (ceilDiv L.length s)).map
        (fun i => (L.drop (i * s)).take s)).flatten = L := by
  intro n
  induction n with
  | zero =>
    intro L h
    have hnil : L = [] := List.eq_nil_of_length_eq_zero (by omega)
    subst hnil
    simp [ceilDiv_zero s hs]
  | succ n ih =>
    intro L hL
    by_cases hL0 : L.length = 0
    · have hnil : L = [] := List.eq_nil_of_length_eq_zero hL0
      subst hnil
      simp [ceilDiv_zero s hs]
    · rw [ceilDiv_step L.length s hs (by omega), List.range_succ_eq_map]
      rw [List.map_cons, List.flatten_cons, List.map_map]
      have hhead : (L.drop (0 * s)).take s = L.take s := by
        rw [Nat.zero_mul, List.drop_zero]
      have hfun : ((fun i => (L.drop (i * s)).take s) ∘ Nat.succ)
          = fun i => ((L.drop s).drop (i * s)).take s := by
        funext i
        show (L.drop ((i + 1) * s)).take s = ((L.drop s).drop (i * s)).take s
        rw [List.drop_drop, Nat.succ_mul, Nat.add_comm (i * s) s]
      have htail := ih (L.drop s) (by rw [List.length_drop]; omega)
      rw [List.length_drop] at htail
      rw [hhead, hfun, htail, List.take_append_drop]

theorem chunks_flatten {α : Type} (s : Nat) (hs : 0 < s) (L : List α) :
    ((List.range (ceilDiv L.length s)).map
      (fun i => (L.drop (i * s)).take s)).flatten = L :=
  chunks_flatten_aux s hs L.length L le_rfl

/-- C4: with `page ≥ 1` and `limit ∈ [1, 50]`, `getPosts` returns at most
`limit` items, reports the total matching count, `totalPages` equal to
`ceil(total / limit)`, `hasNext` exactly when further matching items lie beyond
this page and `hasPrev` exactly when `page > 1`; concatenating the item lists of
pages `1 .. totalPages` in order reproduces the whole filtered-and-sorted result
(sanitized), each element exactly once. -/
theorem spec_C4_pagination (s : DataStore) (now : Nat) (cat : Option String)
    (sortKey : String) (page limit : Nat)
    (hp : 1 ≤ page) (h1 : 1 ≤ limit) (h50 : limit ≤ 50) :
    (getPosts s now cat page limit sortKey).posts.length ≤ limit
    ∧ (getPosts s now cat page limit sortKey).pagination.totalPosts
        = (filteredSorted s now cat sortKey).length
    ∧ (getPosts s now cat page limit sortKey).pagination.total
        = ceilDiv (filteredSorted s now cat sortKey).length limit
    ∧ ((getPosts s now cat page limit sortKey).pagination.hasNext = true
        ↔ page * limit < (filteredSorted s now cat sortKey).length)
    ∧ ((getPosts s now cat page limit sortKey).pagination.hasPrev = true
        ↔ 1 < page)
    ∧ ((List.range ((getPosts s now cat page limit sortKey).pagination.total)).map
          (fun i => (getPosts s now cat (i + 1) limit sortKey).posts)).flatten
        = (filteredSorted s now cat sortKey).map sanitizePost := by
  have hlen : (filteredSorted s now cat sortKey).length
      = (s.posts.filter (matchesQuery cat now)).length := length_sortPosts _ _
  refine ⟨?_, ?_, ?_, ?_, ?_, ?_⟩
  · have h : (getPosts s now cat page limit sortKey).posts
        = (((filteredSorted s now cat sortKey).drop
            ((page - 1) * limit)).take limit).map sanitizePost := rfl
    rw [h, List.length_map, List.length_take]
    omega
  · have h : (getPosts s now cat page limit sortKey).pagination.totalPosts
        = (s.posts.filter (matchesQuery cat now)).length := rfl
    rw [h, hlen]
  · have h : (getPosts s now cat page limit sortKey).pagination.total
        = ceilDiv (s.posts.filter (matchesQuery cat now)).length limit := rfl
    rw [h, hlen]
  · have h : (getPosts s now cat page limit sortKey).pagination.hasNext
        = decide (page < ceilDiv (s.posts.filter (matchesQuery cat now)).length limit) := rfl
    rw [h, decide_eq_true_iff, hlen]
    exact lt_ceilDiv_iff page _ limit (by omega)
  · have h : (getPosts s now cat page limit sortKey).pagination.hasPrev
        = decide (1 < page) := rfl
    rw [h, decide_eq_true_iff]
  · have h : (getPosts s now cat page limit sortKey).pagination.total
        = ceilDiv (s.posts.filter (matchesQuery cat now)).length limit := rfl
    rw [h, ← hlen]
    have hpages : (fun i => (getPosts s now cat (i + 1) limit sortKey).posts)
        = fun i => (((filteredSorted s now cat sortKey).drop (i * limit)).take limit).map
            sanitizePost := by
      funext i
      have h2 : (getPosts s now cat (i + 1) limit sortKey).posts
          = (((filteredSorted s now cat sortKey).drop
              ((i + 1 - 1) * limit)).take limit).map sanitizePost := rfl
      rw [h2]
      rfl
    rw [hpages]
    have hmap : (List.range (ceilDiv (filteredSorted s now cat sortKey).length limit)).map
        (fun i => (((filteredSorted s now cat sortKey).drop (i * limit)).take limit).map
          sanitizePost)
        = ((List.range (ceilDiv (filteredSorted s now cat sortKey).length limit)).map
            (fun i => ((filteredSorted s now cat sortKey).drop (i * limit)).take limit)).map
          (List.map sanitizePost) := by
      rw [List.map_map]
      rfl
    rw [hmap, ← List.map_flatten, chunks_flatten limit (by omega)]

/-- Witness for C4 at the concrete boundary store, page 1 and page size 20. -/
theorem spec_C4_pagination_witness :
    (getPosts cxStore 100 none 1 20 "timestamp").posts.length ≤ 20
    ∧ (getPosts cxStore 100 none 1 20 "timestamp").pagination.totalPosts
        = (filteredSorted cxStore 100 none "timestamp").length
    ∧ (getPosts cxStore 100 none 1 20 "timestamp").pagination.total
        = ceilDiv (filteredSorted cxStore 100 none "timestamp").length 20
    ∧ ((getPosts cxStore 100 none 1 20 "timestamp").pagination.hasNext = true
        ↔ 1 * 20 < (filteredSorted cxStore 100 none "timestamp").length)
    ∧ ((getPosts cxStore 100 none 1 20 "timestamp").pagination.hasPrev = true ↔ 1 < 1)
    ∧ ((List.range ((getPosts cxStore 100 none 1 20 "timestamp").pagination.total)).map
          (fun i => (getPosts cxStore 100 none (i + 1) 20 "timestamp").posts)).flatten
        = (filteredSorted cxStore 100 none "timestamp").map sanitizePost :=
  spec_C4_pagination cxStore 100 none "timestamp" 1 20 (by decide) (by decide) (by decide)

/-! Claim C7. -/

theorem eq_of_mem_keys_nodup {β : Type} {l : List (String × β)}
    (h : (l.map Prod.fst).Nodup) {x y : String × β}
    (hx : x ∈ l) (hy : y ∈ l) (hxy : x.1 = y.1) : x = y := by
  induction l with
  | nil => cases hx
  | cons a t ih =>
    rw [List.map_cons, List.nodup_cons] at h
    rcases h with ⟨ha, ht⟩
    rcases List.mem_cons.mp hx with rfl | hx'
    · rcases List.mem_cons.mp hy with rfl | hy'
      · rfl
      · exact absurd (List.mem_map.mpr ⟨y, hy', hxy.symm⟩) ha
    · rcases List.mem_cons.mp hy with rfl | hy'
      · exact absurd (List.mem_map.mpr ⟨x, hx', hxy⟩) ha
      · exact ih ht hx' hy'

/-- C7: the limiter is a fixed-window counter.  First conjunct (window reset):
whatever the table holds, if the entry found for `key` started its window more
than `windowMs` ago, the request is accepted and the key's state is reset to
count 1 with the window restarted at `now` (the stale entries, this one
included, are evicted and the key is re-inserted fresh).  Second conjunct (the
spec's example, for the post limiter's 3 requests per 300000 ms): four requests
from one identity at instants `t1 ≤ t2 ≤ t3 ≤ t4` all strictly inside the
window opened at `t1` yield three acceptances and then a rejection carrying
`Math.ceil` of the remaining window in seconds, which is positive. -/
theorem spec_C7_fixed_window (w mx : Nat) (st : List (String × RLEntry))
    (key : String) (now : Nat) (e : String × RLEntry)
    (k2 : String) (t1 t2 t3 t4 : Nat)
    (hnd : (st.map Prod.fst).Nodup)
    (hfind : st.find? (fun x => x.1 == key) = some e)
    (hstale : w < now - e.2.resetTime)
    (h12 : t1 ≤ t2) (h23 : t2 ≤ t3) (h34 : t3 ≤ t4) (h4 : t4 < t1 + 300000) :
    rlStep w mx st key now
      = (st.filter (fun x => !(decide (w < now - x.2.resetTime))) ++ [(key, ⟨1, now⟩)],
         .accepted)
    ∧ (rlStep 300000 3 [] k2 t1).2 = .accepted
    ∧ (rlStep 300000 3 (rlStep 300000 3 [] k2 t1).1 k2 t2).2 = .accepted
    ∧ (rlStep 300000 3 (rlStep 300000 3 (rlStep 300000 3 [] k2 t1).1 k2 t2).1 k2 t3).2
        = .accepted
    ∧ (rlStep 300000 3 (rlStep 300000 3 (rlStep 300000 3
          (rlStep 300000 3 [] k2 t1).1 k2 t2).1 k2 t3).1 k2 t4).2
        = .rejected ((300000 - (t4 - t1) + 999) / 1000)
    ∧ 1 ≤ (300000 - (t4 - t1) + 999) / 1000 := by
  have e1 : rlStep 300000 3 [] k2 t1 = ([(k2, ⟨1, t1⟩)], .accepted) := rfl
  have hn2 : ¬ (300000 < t2 - t1) := by omega
  have hn3 : ¬ (300000 < t3 - t1) := by omega
  have hn4 : ¬ (300000 < t4 - t1) := by omega
  have e2 : rlStep 300000 3 [(k2, ⟨1, t1⟩)] k2 t2 = ([(k2, ⟨2, t1⟩)], .accepted) := by
    simp [rlStep, List.filter_cons, List.find?_cons, hn2, updateFirst]
  have e3 : rlStep 300000 3 [(k2, ⟨2, t1⟩)] k2 t3 = ([(k2, ⟨3, t1⟩)], .accepted) := by
    simp [rlStep, List.filter_cons, List.find?_cons, hn3, updateFirst]
  have e4 : rlStep 300000 3 [(k2, ⟨3, t1⟩)] k2 t4
      = ([(k2, ⟨3, t1⟩)], .rejected ((300000 - (t4 - t1) + 999) / 1000)) := by
    simp [rlStep, List.filter_cons, List.find?_cons, hn4]
  refine ⟨?_, ?_, ?_, ?_, ?_, ?_⟩
  · have hkey : e.1 = key := by simpa using List.find?_some hfind
    have hmem : e ∈ st := List.mem_of_find?_eq_some hfind
    have hnone : (st.filter (fun x => !(decide (w < now - x.2.resetTime)))).find?
        (fun x => x.1 == key) = none := by
      apply List.find?_eq_none.mpr
      intro x hx hpx
      rcases List.mem_filter.mp hx with ⟨hxs, hqx⟩
      have hxkey : x.1 = key := by simpa using hpx
      have hxe : x = e := eq_of_mem_keys_nodup hnd hxs hmem (by rw [hxkey, hkey])
      rw [hxe] at hqx
      simp only [Bool.not_eq_true', decide_eq_false_iff_not] at hqx
      omega
    unfold rlStep
    simp only
    rw [hnone]
  · rw [e1]
  · rw [e1, e2]
  · rw [e1, e2, e3]
  · rw [e1, e2, e3, e4]
  · rw [Nat.le_div_iff_mul_le (by omega : 0 < 1000)]
    omega

/-- Witness for C7 at a concrete stale table and concrete request instants. -/
theorem spec_C7_fixed_window_witness :
    rlStep 300000 3 [("k", ⟨2, 0⟩)] "k" 300001
      = ([("k", ⟨2, 0⟩)].filter (fun x => !(decide (300000 < 300001 - x.2.resetTime)))
          ++ [("k", ⟨1, 300001⟩)], .accepted)
    ∧ (rlStep 300000 3 [] "u" 10).2 = .accepted
    ∧ (rlStep 300000 3 (rlStep 300000 3 [] "u" 10).1 "u" 20).2 = .accepted
    ∧ (rlStep 300000 3 (rlStep 300000 3 (rlStep 300000 3 [] "u" 10).1 "u" 20).1 "u" 30).2
        = .accepted
    ∧ (rlStep 300000 3 (rlStep 300000 3 (rlStep 300000 3
          (rlStep 300000 3 [] "u" 10).1 "u" 20).1 "u" 30).1 "u" 40).2
        = .rejected ((300000 - (40 - 10) + 999) / 1000)
    ∧ 1 ≤ (300000 - (40 - 10) + 999) / 1000 :=
  spec_C7_fixed_window 300000 3 [("k", ⟨2, 0⟩)] "k" 300001 ("k", ⟨2, 0⟩) "u" 10 20 30 40
    (by decide) (by decide) (by decide) (by decide) (by decide) (by decide) (by decide)

/-! Claim C8: equivalence of the executable regex scanners with the spec's
declarative heuristics. -/

theorem and_true_split {a b : Bool} (h : (a && b) = true) : a = true ∧ b = true :=
  ⟨Bool.and_elim_left h, Bool.and_elim_right h⟩

theorem and_true_intro {a b : Bool} (h1 : a = true) (h2 : b = true) :
    (a && b) = true := by
  rw [h1, h2]
  rfl

theorem leadMatch_iff (p : List Char) : ∀ l, leadMatch p l = true ↔ ∃ t, l = p ++ t := by
  induction p with
  | nil =>
    intro l
    simp [leadMatch]
  | cons a q ih =>
    intro l
    cases l with
    | nil =>
      simp [leadMatch]
    | cons b t =>
      rw [leadMatch]
      constructor
      · intro h
        rcases and_true_split h with ⟨hab, hq⟩
        have hab' : a = b := by simpa using hab
        rcases (ih t).mp hq with ⟨u, hu⟩
        exact ⟨u, by rw [hu, hab', List.cons_append]⟩
      · rintro ⟨u, hu⟩
        rw [List.cons_append] at hu
        injection hu with h1 h2
        exact and_true_intro (by simp [h1]) ((ih t).mpr ⟨u, h2⟩)

theorem ciLead_iff (p : List Char) : ∀ l, ciLead p l = true ↔
    ∃ w t, l = w ++ t ∧ w.map Char.toLower = p.map Char.toLower := by
  induction p with
  | nil =>
    intro l
    constructor
    · intro _
      exact ⟨[], l, rfl, rfl⟩
    · intro _
      rfl
  | cons a q ih =>
    intro l
    cases l with
    | nil =>
      constructor
      · intro h
        exact absurd h (by simp [ciLead])
      · rintro ⟨w, t, hw, hmap⟩
        have hw0 : w = [] := by
          cases w with
          | nil => rfl
          | cons c cs => simp at hw
        subst hw0
        simp at hmap
    | cons b t =>
      rw [ciLead]
      constructor
      · intro h
        rcases and_true_split h with ⟨hab, hq⟩
        have hab' : Char.toLower b = Char.toLower a := (eq_of_beq hab).symm
        rcases (ih t).mp hq with ⟨w, u, hu, hmap⟩
        refine ⟨b :: w, u, by rw [hu, List.cons_append], ?_⟩
        rw [List.map_cons, List.map_cons, hab', hmap]
      · rintro ⟨w, u, hu, hmap⟩
        cases w with
        | nil => simp at hmap
        | cons c cs =>
          rw [List.cons_append] at hu
          injection hu with h1 h2
          rw [List.map_cons, List.map_cons] at hmap
          injection hmap with h3 h4
          subst h1
          exact and_true_intro (by simp [h3]) ((ih t).mpr ⟨cs, u, h2, h4⟩)

theorem hasCharRun_iff (l : List Char) : hasCharRun l = true ↔ RepeatCharSpec l := by
  unfold hasCharRun RepeatCharSpec
  rw [List.any_eq_true]
  constructor
  · rintro ⟨i, hir, hf⟩
    have hi : i < l.length := List.mem_range.mp hir
    cases hd : l.drop i with
    | nil => rw [hd] at hf; exact absurd hf (by simp)
    | cons c rest =>
      rw [hd] at hf
      simp only at hf
      rcases and_true_split hf with ⟨hdot, hlm⟩
      rcases (leadMatch_iff _ rest).mp hlm with ⟨t, ht⟩
      refine ⟨l.take i, c, t, hdot, ?_⟩
      conv_lhs => rw [← List.take_append_drop i l]
      rw [hd, ht, List.replicate_succ]
      simp [List.append_assoc]
  · rintro ⟨pre, c, suf, hdot, hl⟩
    refine ⟨pre.length, List.mem_range.mpr ?_, ?_⟩
    · have := congrArg List.length hl
      simp [List.length_append] at this
      omega
    · have hd : l.drop pre.length = List.replicate 11 c ++ suf := by
        rw [hl, List.append_assoc, List.drop_left]
      rw [hd, List.replicate_succ]
      simp only [List.cons_append]
      exact and_true_intro hdot ((leadMatch_iff _ _).mpr ⟨suf, rfl⟩)

theorem hasCapsRun_iff (l : List Char) : hasCapsRun l = true ↔ CapsRunSpec l := by
  unfold hasCapsRun CapsRunSpec
  rw [List.any_eq_true]
  constructor
  · rintro ⟨i, hir, hf⟩
    simp only at hf
    rcases and_true_split hf with ⟨hlen, hall⟩
    have hlen' : ((l.drop i).take 20).length = 20 := by simpa using hlen
    refine ⟨l.take i, (l.drop i).take 20, (l.drop i).drop 20, hlen', ?_, ?_⟩
    · intro c hc
      exact List.all_eq_true.mp hall c hc
    · conv_lhs => rw [← List.take_append_drop i l]
      rw [← List.take_append_drop 20 (l.drop i)]
      simp [List.append_assoc]
  · rintro ⟨pre, w, suf, hwlen, hall, hl⟩
    refine ⟨pre.length, List.mem_range.mpr ?_, ?_⟩
    · have := congrArg List.length hl
      simp [List.length_append] at this
      omega
    · have hd : l.drop pre.length = w ++ suf := by
        rw [hl, List.append_assoc, List.drop_left]
      have htake : (l.drop pre.length).take 20 = w := by
        rw [hd, List.take_append_eq_append_take, hwlen,
          List.take_of_length_le (by omega)]
        simp
      simp only [htake]
      exact and_true_intro (by simp [hwlen]) (List.all_eq_true.mpr hall)

theorem hasRepeatedPhrase_iff (l : List Char) :
    hasRepeatedPhrase l = true ↔ RepeatedPhraseSpec l := by
  unfold hasRepeatedPhrase RepeatedPhraseSpec
  rw [List.any_eq_true]
  constructor
  · rintro ⟨i, hir, hf⟩
    rcases List.any_eq_true.mp hf with ⟨m, hmr, hm⟩
    have hmb : 1 ≤ m ∧ m ≤ 20 := by
      rcases List.mem_range'.mp hmr with ⟨i2, hi2, rfl⟩
      omega
    simp only at hm
    rcases and_true_split hm with ⟨hm1, hlm⟩
    rcases and_true_split hm1 with ⟨hmlen, hdot⟩
    have hmlen' : ((l.drop i).take m).length = m := by simpa using hmlen
    rcases (leadMatch_iff _ _).mp hlm with ⟨t, ht⟩
    set w := (l.drop i).take m with hw
    refine ⟨l.take i, w, t, by omega, by omega,
      fun c hc => List.all_eq_true.mp hdot c hc, ?_⟩
    have hsplit : l.drop i = w ++ l.drop (i + m) := by
      conv_lhs => rw [← List.take_append_drop m (l.drop i)]
      rw [List.drop_drop]
    conv_lhs => rw [← List.take_append_drop i l]
    rw [hsplit, ht]
    simp [List.append_assoc]
  · rintro ⟨pre, w, suf, hw1, hw20, hdot, hl⟩
    refine ⟨pre.length, List.mem_range.mpr ?_, ?_⟩
    · have := congrArg List.length hl
      simp [List.length_append] at this
      omega
    · apply List.any_eq_true.mpr
      refine ⟨w.length, List.mem_range'.mpr ⟨w.length - 1, by omega, by omega⟩, ?_⟩
      have hd : l.drop pre.length = w ++ (w ++ w ++ w ++ suf) := by
        rw [hl]
        simp [List.append_assoc]
      have htake : (l.drop pre.length).take w.length = w := by
        rw [hd, List.take_append_eq_append_take,
          List.take_of_length_le (by omega)]
        simp
      have hdrop : l.drop (pre.length + w.length) = w ++ w ++ w ++ suf := by
        rw [← List.drop_drop, hd, List.drop_left]
      simp only [htake, hdrop]
      refine and_true_intro (and_true_intro (by simp) (List.all_eq_true.mpr hdot)) ?_
      apply (leadMatch_iff _ _).mpr
      exact ⟨suf, by simp [List.append_assoc]⟩

theorem hasSpamPhrase_iff (l : List Char) :
    hasSpamPhrase l = true ↔ SpamPhraseSpec l := by
  unfold hasSpamPhrase SpamPhraseSpec
  rw [List.any_eq_true]
  constructor
  · rintro ⟨i, hir, hf⟩
    rcases List.any_eq_true.mp hf with ⟨ph, hph, hci⟩
    rcases (ciLead_iff _ _).mp hci with ⟨w, t, ht, hmap⟩
    refine ⟨ph, hph, l.take i, w, t, hmap, ?_⟩
    conv_lhs => rw [← List.take_append_drop i l]
    rw [ht]
    simp [List.append_assoc]
  · rintro ⟨ph, hph, pre, w, suf, hmap, hl⟩
    refine ⟨pre.length, List.mem_range.mpr ?_, ?_⟩
    · have := congrArg List.length hl
      simp [List.length_append] at this
      omega
    · apply List.any_eq_true.mpr
      refine ⟨ph, hph, (ciLead_iff _ _).mpr ⟨w, suf, ?_, hmap⟩⟩
      rw [hl, List.append_assoc, List.drop_left]

theorem take_getLast? (l : List Char) (i : Nat) (h1 : 0 < i) (h2 : i ≤ l.length) :
    (l.take i).getLast? = (l.drop (i - 1)).head? := by
  have hlen : (l.take i).length = i := by
    rw [List.length_take]
    omega
  rw [List.getLast?_eq_getElem?, hlen, List.getElem?_take, if_pos (by omega),
    List.head?_drop]

theorem wordAt_false_iff (l : List Char) (j : Nat) :
    wordAt l j = false ↔ ∀ c, (l.drop j).head? = some c → wordChar c = false := by
  unfold wordAt
  cases hd : l.drop j with
  | nil => simp
  | cons c cs =>
    simp only [List.head?_cons]
    constructor
    · intro h d hd2
      have : c = d := by simpa using hd2
      exact this ▸ h
    · intro h
      exact h c rfl

theorem hasSpamKeyword_iff (l : List Char) :
    hasSpamKeyword l = true ↔ SpamKeywordSpec l := by
  have hkwpos : ∀ k ∈ spamKeywords, 0 < k.toList.length := by decide
  unfold hasSpamKeyword SpamKeywordSpec
  rw [List.any_eq_true]
  constructor
  · rintro ⟨i, hir, hf⟩
    rcases List.any_eq_true.mp hf with ⟨kw, hkw, hc⟩
    rcases and_true_split hc with ⟨hc1, hbr⟩
    rcases and_true_split hc1 with ⟨hbl, hci⟩
    rcases (ciLead_iff _ _).mp hci with ⟨w, t, ht, hmap⟩
    have hwlen : w.length = kw.toList.length := by
      have := congrArg List.length hmap
      simpa using this
    have hwne : w ≠ [] := by
      apply List.ne_nil_of_length_pos
      rw [hwlen]
      exact hkwpos kw hkw
    have hile : i < l.length := by
      by_contra hcon
      have hnil : l.drop i = [] := List.drop_eq_nil_of_le (by omega)
      rw [hnil] at ht
      exact hwne (List.append_eq_nil.mp ht.symm).1
    have hl : l = l.take i ++ w ++ t := by
      conv_lhs => rw [← List.take_append_drop i l]
      rw [ht]
      simp [List.append_assoc]
    have hdt : l.drop (i + kw.toList.length) = t := by
      rw [← hwlen, ← List.drop_drop, ht, List.drop_left]
    refine ⟨kw, hkw, l.take i, w, t, hmap, hl, ?_, ?_⟩
    · intro c hc2
      by_cases hi0 : i = 0
      · subst hi0
        simp at hc2
      · have hb : wordAt l (i - 1) = false := by
          by_contra hcon
          have h1 : wordAt l (i - 1) = true := by
            revert hcon
            cases wordAt l (i - 1) <;> simp
          rw [h1] at hbl
          simp at hbl
          exact hi0 hbl
        have hc3 : (l.drop (i - 1)).head? = some c := by
          rw [← take_getLast? l i (by omega) (by omega)]
          exact hc2
        exact (wordAt_false_iff _ _).mp hb c hc3
    · intro c hc2
      have hb : wordAt l (i + kw.toList.length) = false := by
        simpa using hbr
      exact (wordAt_false_iff _ _).mp hb c (by rw [hdt]; exact hc2)
  · rintro ⟨kw, hkw, pre, w, suf, hmap, hl, hbL, hbR⟩
    have hwlen : w.length = kw.toList.length := by
      have := congrArg List.length hmap
      simpa using this
    have hd : l.drop pre.length = w ++ suf := by
      rw [hl, List.append_assoc, List.drop_left]
    have hds : l.drop (pre.length + kw.toList.length) = suf := by
      rw [← hwlen, ← List.drop_drop, hd, List.drop_left]
    refine ⟨pre.length, List.mem_range.mpr ?_, ?_⟩
    · have := congrArg List.length hl
      simp [List.length_append] at this
      omega
    · apply List.any_eq_true.mpr
      refine ⟨kw, hkw, ?_⟩
      refine and_true_intro (and_true_intro ?_ ?_) ?_
      · by_cases hpre : pre = []
        · simp [hpre]
        · obtain ⟨c, hc⟩ : ∃ c, pre.getLast? = some c := by
            cases hgl : pre.getLast? with
            | none => exact absurd (List.getLast?_eq_none_iff.mp hgl) hpre
            | some c => exact ⟨c, rfl⟩
          have hwc : wordChar c = false := hbL c hc
          have hprelen : 0 < pre.length := List.length_pos.mpr hpre
          have hprele : pre.length ≤ l.length := by
            have := congrArg List.length hl
            simp [List.length_append] at this
            omega
          have htk : l.take pre.length = pre := by
            rw [hl, List.append_assoc, List.take_left]
          have hgl2 : (l.drop (pre.length - 1)).head? = some c := by
            rw [← take_getLast? l pre.length hprelen hprele, htk]
            exact hc
          have hwa : wordAt l (pre.length - 1) = false := by
            apply (wordAt_false_iff _ _).mpr
            intro d hd2
            rw [hgl2] at hd2
            have : c = d := by simpa using hd2
            exact this ▸ hwc
          simp [hwa]
      · exact (ciLead_iff _ _).mpr ⟨w, suf, hd, hmap⟩
      · have hwa : wordAt l (pre.length + kw.toList.length) = false := by
          apply (wordAt_false_iff _ _).mpr
          intro d hd2
          rw [hds] at hd2
          exact hbR d hd2
        have hwa' : wordAt l (pre.length + kw.length) = false := by
          have he : kw.toList.length = kw.length := by simp
          rw [← he]
          exact hwa
        simp [hwa']

theorem leadMatch_self_append (p x : List Char) : leadMatch p (p ++ x) = true :=
  (leadMatch_iff p _).mpr ⟨x, rfl⟩

theorem leadMatch_https_http (x : List Char) :
    leadMatch httpsLit (httpLit ++ x) = false := rfl

theorem urlLit_spec {l : List Char} {i a : Nat} (h : urlLit l i = some a) :
    ∃ lit, (lit = httpLit ∨ lit = httpsLit) ∧ lit.length = a ∧
      l.drop i = lit ++ l.drop (i + a) := by
  unfold urlLit at h
  split_ifs at h with h1 h2
  · have ha : (8 : Nat) = a := Option.some.inj h
    rcases (leadMatch_iff _ _).mp h1 with ⟨t, ht⟩
    subst ha
    refine ⟨httpsLit, Or.inr rfl, rfl, ?_⟩
    have hdrop : l.drop (i + 8) = t := by
      have h8 : (8 : Nat) = httpsLit.length := rfl
      rw [← List.drop_drop, ht, h8, List.drop_left]
    rw [ht, hdrop]
  · have ha : (7 : Nat) = a := Option.some.inj h
    rcases (leadMatch_iff _ _).mp h2 with ⟨t, ht⟩
    subst ha
    refine ⟨httpLit, Or.inl rfl, rfl, ?_⟩
    have hdrop : l.drop (i + 7) = t := by
      have h7 : (7 : Nat) = httpLit.length := rfl
      rw [← List.drop_drop, ht, h7, List.drop_left]
    rw [ht, hdrop]

theorem urlLit_of_tok {l x u r : List Char} {i : Nat}
    (hd : l.drop i = u ++ x)
    (hor : u = httpLit ++ r ∨ u = httpsLit ++ r) :
    ∃ a, urlLit l i = some a ∧ i + a + r.length = i + u.length ∧
      l.drop (i + a) = r ++ x := by
  rcases hor with hu | hu
  · refine ⟨7, ?_, ?_, ?_⟩
    · unfold urlLit
      rw [hd, hu, List.append_assoc]
      rw [leadMatch_https_http, if_neg (by simp), if_pos (leadMatch_self_append _ _)]
    · rw [hu, List.length_append]
      have : httpLit.length = 7 := rfl
      omega
    · have h7 : (7 : Nat) = httpLit.length := rfl
      rw [← List.drop_drop, hd, hu, List.append_assoc, h7, List.drop_left]
  · refine ⟨8, ?_, ?_, ?_⟩
    · unfold urlLit
      rw [hd, hu, List.append_assoc]
      rw [if_pos (leadMatch_self_append _ _)]
    · rw [hu, List.length_append]
      have : httpsLit.length = 8 := rfl
      omega
    · have h8 : (8 : Nat) = httpsLit.length := rfl
      rw [← List.drop_drop, hd, hu, List.append_assoc, h8, List.drop_left]

theorem hasTripleURL_iff (l : List Char) :
    hasTripleURL l = true ↔ TripleURLSpec l := by
  unfold hasTripleURL TripleURLSpec
  constructor
  · intro h
    obtain ⟨i, hir, hfi⟩ := List.any_eq_true.mp h
    have hi : i < l.length := List.mem_range.mp hir
    cases hua : urlLit l i with
    | none => simp [hua] at hfi
    | some a =>
      simp only [hua] at hfi
      obtain ⟨j, hjr, hfj⟩ := List.any_eq_true.mp hfi
      have hj : j < l.length := List.mem_range.mp hjr
      cases hub : urlLit l j with
      | none => simp [hub] at hfj
      | some b =>
        simp only [hub] at hfj
        rcases and_true_split hfj with ⟨hseg1, hfk⟩
        obtain ⟨k, hkr, hfk2⟩ := List.any_eq_true.mp hfk
        have hk : k < l.length := List.mem_range.mp hkr
        cases huc : urlLit l k with
        | none => simp [huc] at hfk2
        | some c =>
          simp only [huc] at hfk2
          rcases and_true_split hfk2 with ⟨hseg2, hlast⟩
          cases hdkc : l.drop (k + c) with
          | nil => rw [hdkc] at hlast; simp at hlast
          | cons d rest =>
            rw [hdkc] at hlast
            simp only at hlast
            obtain ⟨lit1, hor1, hlen1, hsplit1⟩ := urlLit_spec hua
            obtain ⟨lit2, hor2, hlen2, hsplit2⟩ := urlLit_spec hub
            obtain ⟨lit3, hor3, hlen3, hsplit3⟩ := urlLit_spec huc
            rcases and_true_split hseg1 with ⟨hij, hall1⟩
            rcases and_true_split hseg2 with ⟨hjk, hall2⟩
            have hij' : i + a < j := by simpa using hij
            have hjk' : j + b < k := by simpa using hjk
            set r1 := (l.drop (i + a)).take (j - (i + a)) with hr1
            set r2 := (l.drop (j + b)).take (k - (j + b)) with hr2
            have hsplitr1 : l.drop (i + a) = r1 ++ l.drop j := by
              conv_lhs => rw [← List.take_append_drop (j - (i + a)) (l.drop (i + a))]
              rw [List.drop_drop]
              have he : i + a + (j - (i + a)) = j := by omega
              rw [he]
            have hsplitr2 : l.drop (j + b) = r2 ++ l.drop k := by
              conv_lhs => rw [← List.take_append_drop (k - (j + b)) (l.drop (j + b))]
              rw [List.drop_drop]
              have he : j + b + (k - (j + b)) = k := by omega
              rw [he]
            have hr1len : r1.length = j - (i + a) := by
              rw [hr1, List.length_take, List.length_drop]
              omega
            have hr2len : r2.length = k - (j + b) := by
              rw [hr2, List.length_take, List.length_drop]
              omega
            have hr1ne : r1 ≠ [] := List.ne_nil_of_length_pos (by omega)
            have hr2ne : r2 ≠ [] := List.ne_nil_of_length_pos (by omega)
            have hr1sp : ∀ e ∈ r1, isSpaceChar e = false := by
              intro e he
              have := List.all_eq_true.mp hall1 e he
              simpa using this
            have hr2sp : ∀ e ∈ r2, isSpaceChar e = false := by
              intro e he
              have := List.all_eq_true.mp hall2 e he
              simpa using this
            refine ⟨l.take i, lit1 ++ r1, lit2 ++ r2, lit3 ++ [d], rest,
              ⟨r1, hr1ne, hr1sp, by rcases hor1 with h1 | h1 <;> [exact Or.inl (by rw [h1]); exact Or.inr (by rw [h1])]⟩,
              ⟨r2, hr2ne, hr2sp, by rcases hor2 with h1 | h1 <;> [exact Or.inl (by rw [h1]); exact Or.inr (by rw [h1])]⟩,
              ⟨[d], by simp, by intro e he; rw [List.mem_singleton.mp he]; simpa using hlast,
                by rcases hor3 with h1 | h1 <;> [exact Or.inl (by rw [h1]); exact Or.inr (by rw [h1])]⟩, ?_⟩
            conv_lhs => rw [← List.take_append_drop i l]
            rw [hsplit1, hsplitr1, hsplit2, hsplitr2, hsplit3, hdkc]
            simp [List.append_assoc]
  · rintro ⟨pre, u1, u2, u3, suf, ⟨r1, hr1ne, hr1sp, hor1⟩,
      ⟨r2, hr2ne, hr2sp, hor2⟩, ⟨r3, hr3ne, hr3sp, hor3⟩, hl⟩
    have hl' : l = pre ++ (u1 ++ (u2 ++ (u3 ++ suf))) := by
      rw [hl]
      simp [List.append_assoc]
    have hd1 : l.drop pre.length = u1 ++ (u2 ++ (u3 ++ suf)) := by
      rw [hl', List.drop_left]
    have hd2 : l.drop (pre.length + u1.length) = u2 ++ (u3 ++ suf) := by
      rw [← List.drop_drop, hd1, List.drop_left]
    have hd3 : l.drop (pre.length + u1.length + u2.length) = u3 ++ suf := by
      rw [← List.drop_drop, hd2, List.drop_left]
    obtain ⟨a1, hua, haj, hda⟩ := urlLit_of_tok hd1 hor1
    obtain ⟨a2, hub, hbk, hdb⟩ := urlLit_of_tok hd2 hor2
    obtain ⟨a3, huc, hcl, hdc⟩ := urlLit_of_tok hd3 hor3
    have hu1len : 0 < r1.length := List.length_pos.mpr hr1ne
    have hu2len : 0 < r2.length := List.length_pos.mpr hr2ne
    have hu3len : 0 < r3.length := List.length_pos.mpr hr3ne
    have hlit1 : httpLit.length = 7 := rfl
    have hlit2 : httpsLit.length = 8 := rfl
    have hu1big : 7 ≤ u1.length := by
      rcases hor1 with h1 | h1 <;> rw [h1, List.length_append] <;> omega
    have hu2big : 7 ≤ u2.length := by
      rcases hor2 with h1 | h1 <;> rw [h1, List.length_append] <;> omega
    have hu3big : 7 ≤ u3.length := by
      rcases hor3 with h1 | h1 <;> rw [h1, List.length_append] <;> omega
    have hlenl : l.length = pre.length + u1.length + u2.length + u3.length + suf.length := by
      have := congrArg List.length hl
      simp [List.length_append] at this
      omega
    apply List.any_eq_true.mpr
    refine ⟨pre.length, List.mem_range.mpr (by omega), ?_⟩
    simp only [hua]
    apply List.any_eq_true.mpr
    refine ⟨pre.length + u1.length, List.mem_range.mpr (by omega), ?_⟩
    simp only [hub]
    apply and_true_intro
    · unfold nonSpaceSeg
      apply and_true_intro
      · simp only [decide_eq_true_iff]
        omega
      · have hidx : pre.length + u1.length - (pre.length + a1) = r1.length := by omega
        rw [hda, hidx, List.take_left]
        apply List.all_eq_true.mpr
        intro e he
        simp [hr1sp e he]
    · apply List.any_eq_true.mpr
      refine ⟨pre.length + u1.length + u2.length, List.mem_range.mpr (by omega), ?_⟩
      simp only [huc]
      apply and_true_intro
      · unfold nonSpaceSeg
        apply and_true_intro
        · simp only [decide_eq_true_iff]
          omega
        · have hidx : pre.length + u1.length + u2.length - (pre.length + u1.length + a2)
              = r2.length := by omega
          rw [hdb, hidx, List.take_left]
          apply List.all_eq_true.mpr
          intro e he
          simp [hr2sp e he]
      · cases hr3c : r3 with
        | nil => exact absurd hr3c hr3ne
        | cons d r3t =>
          rw [hr3c] at hdc
          rw [hdc]
          simp only [List.cons_append]
          have : isSpaceChar d = false := hr3sp d (by rw [hr3c]; exact List.mem_cons_self d r3t)
          simp [this]

theorem spamSpec_of_empty (text : String) (he : text.toList = []) :
    ¬ SpamSpec text := by
  intro h
  unfold SpamSpec at h
  rw [he] at h
  rcases h with h | h | h | h | h | h
  · rcases h with ⟨pre, c, suf, _, hl⟩
    simp at hl
  · rcases h with ⟨pre, u1, u2, u3, suf, ⟨r, _, _, hor⟩, _, _, hl⟩
    simp at hl
    have hu1 : u1 = [] := hl.2.1
    rcases hor with h1 | h1 <;> rw [h1] at hu1 <;> simp [httpLit, httpsLit] at hu1
  · rcases h with ⟨pre, w, suf, hw20, _, hl⟩
    simp at hl
    rw [hl.2.1] at hw20
    simp at hw20
  · rcases h with ⟨pre, w, suf, hw1, _, _, hl⟩
    simp at hl
    rw [hl.2.1] at hw1
    simp at hw1
  · rcases h with ⟨ph, hph, pre, w, suf, hmap, hl⟩
    simp at hl
    unfold lowerEq at hmap
    rw [hl.2.1] at hmap
    have hphne : ph.toList ≠ [] := by
      have hall : ∀ p ∈ spamPhrases, p.toList ≠ [] := by decide
      exact hall ph hph
    have : ph.toList.map Char.toLower = [] := hmap.symm
    rw [List.map_eq_nil_iff] at this
    exact hphne this
  · rcases h with ⟨kw, hkw, pre, w, suf, hmap, hl, _, _⟩
    simp at hl
    unfold lowerEq at hmap
    rw [hl.2.1] at hmap
    have hkwne : kw.toList ≠ [] := by
      have hall : ∀ p ∈ spamKeywords, p.toList ≠ [] := by decide
      exact hall kw hkw
    have : kw.toList.map Char.toLower = [] := hmap.symm
    rw [List.map_eq_nil_iff] at this
    exact hkwne this

theorem checkSpam_iff (text : String) : checkSpam text = true ↔ SpamSpec text := by
  unfold checkSpam
  by_cases he : text.isEmpty
  · rw [if_pos he]
    simp only [Bool.false_eq_true, false_iff]
    apply spamSpec_of_empty
    rw [(String.isEmpty_iff text).mp he]
    rfl
  · rw [if_neg he]
    simp only [Bool.or_eq_true]
    rw [hasCharRun_iff, hasTripleURL_iff, hasCapsRun_iff, hasRepeatedPhrase_iff,
      hasSpamPhrase_iff, hasSpamKeyword_iff]
    unfold SpamSpec
    tauto

/-- C8 counterexample: a body containing three whitespace-separated URLs — three
URL tokens are present by count — passes the content filter, because the regex
`(https?:\/\/[^\s]+){3,}` only matches three URL tokens that abut with no
whitespace between them; so "any text containing 3 or more URLs is rejected" is
false as stated. -/
theorem spec_C8_counterexample :
    3 ≤ urlStartCount "http://a http://b http://c".toList
    ∧ contentFilterRejects "hello" "http://a http://b http://c" = false := by
  refine ⟨by decide, by decide⟩

/-- C8 (amended): the content filter rejects a title/body pair exactly when the
title or the body matches one of the heuristics — a (non-line-terminator)
character repeated at least 11 times, three URL tokens appearing consecutively
with no intervening whitespace, an all-caps run of at least 20 letters, a
1–20-character (line-terminator-free) segment repeated at least 4 times in a
row, a spam phrase occurring case-insensitively, or a spam keyword occurring
case-insensitively with word boundaries — where "at least 3 URLs present
anywhere" is corrected to the consecutive-URL-token form above. -/
theorem spec_C8_content_filter (title content : String) :
    contentFilterRejects title content = true ↔ (SpamSpec title ∨ SpamSpec content) := by
  unfold contentFilterRejects
  rw [Bool.or_eq_true, checkSpam_iff, checkSpam_iff]

/-- Witness for the amended C8 at a concrete spammy title. -/
theorem spec_C8_content_filter_witness :
    contentFilterRejects "WIN the lottery now" "an ordinary body" = true
      ↔ (SpamSpec "WIN the lottery now" ∨ SpamSpec "an ordinary body") :=
  spec_C8_content_filter "WIN the lottery now" "an ordinary body"

/-- Witness for C2 at the concrete A, B, C example with capacity 2. -/
theorem spec_C2_capacity_eviction_witness :
    (∀ n, (runCreates (emptyStore 2 7) ([cArgA, cArgB, cArgC].take n)).posts
        = (([cArgA, cArgB, cArgC].take n).reverse.map (mkPost 7)).take 2)
    ∧ (∀ n, (runCreates (emptyStore 2 7) ([cArgA, cArgB, cArgC].take n)).posts.length ≤ 2)
    ∧ (runCreates (emptyStore 2 7) [cArgA, cArgB, cArgC]).posts
        = [mkPost 7 cArgC, mkPost 7 cArgB] :=
  spec_C2_capacity_eviction 2 7 [cArgA, cArgB, cArgC]

/-- Witness for C6 at the concrete boundary store. -/
theorem spec_C6_no_iphash_in_views_witness :
    (((createPost cxStore cArgA).2.ipHash = none
      ∧ ∀ c ∈ (createPost cxStore cArgA).2.comments, c.ipHash = none)
    ∧ (∀ v ∈ (getPosts cxStore 100 none 1 20 "timestamp").posts,
        v.ipHash = none ∧ ∀ c ∈ v.comments, c.ipHash = none)
    ∧ (∀ v, getPost cxStore 100 "p1" = some v →
        v.ipHash = none ∧ ∀ c ∈ v.comments, c.ipHash = none)
    ∧ (∀ c, (createComment cxStore 100 "p1" "f1" 0 0 "body" "hh").2 = some c →
        c.ipHash = none)
    ∧ (∀ c ∈ getComments cxStore 100 "p1", c.ipHash = none)) :=
  spec_C6_no_iphash_in_views cxStore 100 cArgA none 1 20 "timestamp" "p1" "f1" 0 0
    "body" "hh"

/-- Witness for C9 at the concrete store and creation arguments. -/
theorem spec_C9_passthrough_witness :
    (createPost cxStore cArgA).2.title = cArgA.inp.title
    ∧ (createPost cxStore cArgA).2.content = cArgA.inp.content
    ∧ (mkPost cxStore.maxAge cArgA).title = cArgA.inp.title
    ∧ (mkPost cxStore.maxAge cArgA).content = cArgA.inp.content
    ∧ (createPost cxStore cArgA).2.tags = cArgA.inp.tags.take 5
    ∧ (mkPost cxStore.maxAge cArgA).tags = cArgA.inp.tags.take 5
    ∧ (createPost cxStore cArgA).2.tags.length ≤ 5 :=
  spec_C9_passthrough_and_tag_truncation cxStore cArgA

end AnonForum
